import Mathlib

/- Verification development for the poker settlement screen
   (app/newgame.tsx and app/gamedetails.tsx).

   The screen's logic is modelled as pure Lean functions:
   * JS numbers are modelled as exact rationals (ℚ); `parseFloat`
     returns `Option ℚ`, with `none` playing the role of `NaN`.
   * `Number(x.toFixed(2))` is modelled by `round2` (round half towards
     +∞ at 2 fractional digits, which is the idealized `toFixed`
     behaviour).
   * `String.prototype.trim` / `toLowerCase` are modelled on the ASCII
     fragment (`jsTrim`, `jsToLower`).
   * the stateful while-loop of `calculatePayments` becomes the
     state-passing recursion `settleDebtor`; the save flow `saveGame`
     becomes a function from its inputs to an outcome plus the updated
     stored-games list. -/

namespace Poker

/-- Model of the JS whitespace class used by `trim`/`parseFloat`
(restricted to the ASCII whitespace characters). -/
def jsIsSpace (c : Char) : Bool :=
  decide (c = ' ' ∨ c = '\t' ∨ c = '\n' ∨ c = '\r')

/-- Model of `String.prototype.toLowerCase` on one character,
restricted to the ASCII range (A-Z ↦ a-z, everything else fixed). -/
def jsToLowerChar (c : Char) : Char :=
  if 65 ≤ c.toNat ∧ c.toNat ≤ 90 then Char.ofNat (c.toNat + 32) else c

/-- Model of `String.prototype.toLowerCase` (ASCII fragment). -/
def jsToLower (s : String) : String :=
  ⟨s.data.map jsToLowerChar⟩

/-- Drop leading and trailing whitespace from a character list. -/
def trimChars (l : List Char) : List Char :=
  ((l.dropWhile jsIsSpace).reverse.dropWhile jsIsSpace).reverse

/-- Model of `String.prototype.trim` (ASCII whitespace). -/
def jsTrim (s : String) : String :=
  ⟨trimChars s.data⟩

/-- Numeric value of a list of decimal digit characters. -/
def digitsToNat (l : List Char) : ℕ :=
  l.foldl (fun a c => 10 * a + (c.toNat - 48)) 0

/-- Exponent suffix of a JS number literal (`e`/`E` already consumed):
optional sign then digits; an ill-formed exponent part contributes 0
(parseFloat ignores trailing garbage). -/
def readExpAux (r : List Char) : ℤ :=
  let p : ℤ × List Char :=
    match r with
    | '-' :: rr => (-1, rr)
    | '+' :: rr => (1, rr)
    | _ => (1, r)
  let ds := p.2.takeWhile Char.isDigit
  if ds.isEmpty then 0 else p.1 * digitsToNat ds

/-- Model of the JS global `parseFloat`: skip leading whitespace, read
an optional sign, a decimal mantissa (digits, optional fraction) and an
optional exponent, ignoring any trailing garbage; `none` models `NaN`
(no parseable prefix).  The non-finite literal `Infinity` is outside
the model. -/
def jsParseFloat (s : String) : Option ℚ :=
  let cs := s.data.dropWhile jsIsSpace
  let p : ℚ × List Char :=
    match cs with
    | '-' :: rest => (-1, rest)
    | '+' :: rest => (1, rest)
    | _ => (1, cs)
  let intPart := p.2.takeWhile Char.isDigit
  let rest1 := p.2.dropWhile Char.isDigit
  let q : List Char × List Char :=
    match rest1 with
    | '.' :: r => (r.takeWhile Char.isDigit, r.dropWhile Char.isDigit)
    | _ => ([], rest1)
  if intPart.isEmpty && q.1.isEmpty then none
  else
    let mant : ℚ := (digitsToNat intPart : ℚ) + (digitsToNat q.1 : ℚ) / (10 : ℚ) ^ q.1.length
    let e : ℤ :=
      match q.2 with
      | 'e' :: r => readExpAux r
      | 'E' :: r => readExpAux r
      | _ => 0
    some (p.1 * mant * (10 : ℚ) ^ e)

/-- Model of `Number(x.toFixed(2))`: round to the nearest multiple of
1/100, ties towards +∞ (the JS `toFixed` tie rule "pick the larger n"). -/
def round2 (q : ℚ) : ℚ :=
  ((⌊q * 100 + 1/2⌋ : ℤ) : ℚ) / 100

/-- interface Player (app/newgame.tsx): name, buyIn, cashOut are the raw
text-input strings. -/
structure Player where
  name : String
  buyIn : String
  cashOut : String
deriving DecidableEq, Repr

/-- interface Payment: one settlement transfer. -/
structure Payment where
  from_ : String
  to_ : String
  amount : ℚ
deriving DecidableEq, Repr

/-- One entry of the `playerBalances` intermediate array
(`balance = parseFloat(cashOut) - parseFloat(buyIn)`, `none` = NaN). -/
structure NetBalance where
  name : String
  balance : Option ℚ
deriving DecidableEq, Repr

/-- An entry of the `winners` / `losers` working arrays (a player whose
balance parsed and passed the sign filter). -/
structure Bal where
  name : String
  balance : ℚ
deriving DecidableEq, Repr

/-- `parseFloat(player.cashOut) - parseFloat(player.buyIn)` with NaN
propagation. -/
def jsBalance (p : Player) : Option ℚ :=
  match jsParseFloat p.cashOut, jsParseFloat p.buyIn with
  | some c, some b => some (c - b)
  | _, _ => none

/-- `players.map(player => ({name, balance}))` in `calculatePayments`. -/
def playerBalances (players : List Player) : List NetBalance :=
  players.map fun p => ⟨p.name, jsBalance p⟩

/-- The `filter(p => p.balance > 0)` step: a NaN balance (`none`)
compares false and is dropped. -/
def posPart (pb : NetBalance) : Option Bal :=
  match pb.balance with
  | some b => if 0 < b then some ⟨pb.name, b⟩ else none
  | none => none

/-- The `filter(p => p.balance < 0)` step: a NaN balance (`none`)
compares false and is dropped. -/
def negPart (pb : NetBalance) : Option Bal :=
  match pb.balance with
  | some b => if b < 0 then some ⟨pb.name, b⟩ else none
  | none => none

/-- Stable insertion (descending by balance) modelling the stable JS
`sort((a, b) => b.balance - a.balance)`. -/
def insertDesc (x : Bal) : List Bal → List Bal
  | [] => [x]
  | y :: ys => if y.balance ≤ x.balance then x :: y :: ys else y :: insertDesc x ys

/-- Stable sort, descending by balance. -/
def sortDesc (l : List Bal) : List Bal :=
  l.foldr insertDesc []

/-- Stable insertion (ascending by balance) modelling the stable JS
`sort((a, b) => a.balance - b.balance)`. -/
def insertAsc (x : Bal) : List Bal → List Bal
  | [] => [x]
  | y :: ys => if x.balance ≤ y.balance then x :: y :: ys else y :: insertAsc x ys

/-- Stable sort, ascending by balance. -/
def sortAsc (l : List Bal) : List Bal :=
  l.foldr insertAsc []

/-- The `winners` array of `calculatePayments`: positive balances,
sorted descending. -/
def winnersOf (players : List Player) : List Bal :=
  sortDesc ((playerBalances players).filterMap posPart)

/-- The `losers` array of `calculatePayments`: negative balances,
sorted ascending (most negative first). -/
def losersOf (players : List Player) : List Bal :=
  sortAsc ((playerBalances players).filterMap negPart)

/-- State-passing embedding of the inner while loop of
`calculatePayments` for one loser: state is (emitted payments so far,
winners array from the current index on, remainingDebt).  The loop
advances `winnerIndex` unconditionally each iteration, which here is
walking down the winners list; it updates `winners[winnerIndex]` and
`remainingDebt` only when `payment > 0`.  Returns the payments pushed
by this loser, the full updated winners list, and the final
`remainingDebt`. -/
def settleDebtor (debtor : String) (debt : ℚ) : List Bal → List Payment × List Bal × ℚ
  | [] => ([], [], debt)
  | w :: ws =>
    if 1/100 < debt then
      let payment := min debt w.balance
      if 0 < payment then
        let r := settleDebtor debtor (debt - payment) ws
        (⟨debtor, w.name, round2 payment⟩ :: r.1, ⟨w.name, w.balance - payment⟩ :: r.2.1, r.2.2)
      else
        let r := settleDebtor debtor debt ws
        (r.1, w :: r.2.1, r.2.2)
    else ([], w :: ws, debt)

/-- Body of the `losers.forEach` loop: run one loser's while loop
(starting from `remainingDebt = Math.abs(loser.balance)`), append its
payments, and carry the mutated winners array over to the next loser.
The final `remainingDebt` is dead after the loop, as in the source. -/
def settleStep (acc : List Payment × List Bal) (loser : Bal) : List Payment × List Bal :=
  let r := settleDebtor loser.name |loser.balance| acc.2
  (acc.1 ++ r.1, r.2.1)

/-- `calculatePayments` from app/newgame.tsx. -/
def calculatePayments (players : List Player) : List Payment :=
  ((losersOf players).foldl settleStep ([], winnersOf players)).1

/-- `checkTotalBalance`'s buy-in total: `parseFloat(player.buyIn) || 0`
coerces a NaN (unparseable) field to 0. -/
def buyInTotal (players : List Player) : ℚ :=
  players.foldl (fun sum p => sum + (jsParseFloat p.buyIn).getD 0) 0

/-- `checkTotalBalance`'s cash-out total. -/
def cashOutTotal (players : List Player) : ℚ :=
  players.foldl (fun sum p => sum + (jsParseFloat p.cashOut).getD 0) 0

/-- `checkTotalBalance`: `Number(buyInTotal.toFixed(2)) ===
Number(cashOutTotal.toFixed(2))`. -/
def checkTotalBalance (players : List Player) : Bool :=
  decide (round2 (buyInTotal players) = round2 (cashOutTotal players))

/-- Normalized name used by the duplicate check:
`player.name.toLowerCase().trim()` (lowercase first, then trim). -/
def normalizeName (s : String) : String :=
  jsTrim (jsToLower s)

/-- `hasDuplicateNames`: `new Set(names).size !== names.length`; the JS
`Set` keeps the distinct normalized names, modelled by `dedup`. -/
def hasDuplicateNames (players : List Player) : Bool :=
  decide ((players.map fun p => normalizeName p.name).dedup.length ≠
    (players.map fun p => normalizeName p.name).length)

/-- The completeness validation in `saveGame`:
`players.every(p => p.name.trim() !== '' && ...)`. -/
def allFieldsFilled (players : List Player) : Bool :=
  players.all fun p =>
    (jsTrim p.name != "") && (jsTrim p.buyIn != "") && (jsTrim p.cashOut != "")

/-- interface GameWithPayments: the stored session record. -/
structure GameWithPayments where
  id : String
  date : String
  players : List Player
  payments : List Payment
deriving DecidableEq, Repr

/-- Observable outcome of `saveGame`: which modal/alert is shown, or
the successfully saved game. -/
inductive SaveOutcome
  | showDuplicateModal
  | incompleteAlert
  | showBalanceModal
  | saved (g : GameWithPayments)
deriving DecidableEq, Repr

/-- `saveGame` from app/newgame.tsx, as a function from its inputs
(generated id, date string, entered players, stored games) to the
outcome and the updated stored-games list.  The three checks run in
source order; each failure returns early, leaving storage unchanged. -/
def saveGame (idStr dateStr : String) (players : List Player)
    (existingGames : List GameWithPayments) : SaveOutcome × List GameWithPayments :=
  if hasDuplicateNames players then
    (SaveOutcome.showDuplicateModal, existingGames)
  else if !allFieldsFilled players then
    (SaveOutcome.incompleteAlert, existingGames)
  else if !checkTotalBalance players then
    (SaveOutcome.showBalanceModal, existingGames)
  else
    let payments := calculatePayments players
    let newGame : GameWithPayments := ⟨idStr, dateStr, players, payments⟩
    (SaveOutcome.saved newGame, existingGames ++ [newGame])

/-! ### Observation helpers: sums over payment and balance lists -/

/-- Sum of the recorded amounts of a payment list. -/
def sumAmounts (ps : List Payment) : ℚ :=
  (ps.map Payment.amount).sum

/-- Sum of the recorded amounts of the transfers sent by player `n`. -/
def sumFrom (n : String) (ps : List Payment) : ℚ :=
  ((ps.filter fun t => t.from_ == n).map Payment.amount).sum

/-- Number of transfers sent by player `n`. -/
def countFrom (n : String) (ps : List Payment) : ℕ :=
  (ps.filter fun t => t.from_ == n).length

/-- Sum of the recorded amounts of the transfers received by player `n`. -/
def sumTo (n : String) (ps : List Payment) : ℚ :=
  ((ps.filter fun t => t.to_ == n).map Payment.amount).sum

/-- Number of transfers received by player `n`. -/
def countTo (n : String) (ps : List Payment) : ℕ :=
  (ps.filter fun t => t.to_ == n).length

/-- Total balance held in a winners list. -/
def sumBal (ws : List Bal) : ℚ :=
  (ws.map Bal.balance).sum

/-- Balance held in a winners list under the name `n`. -/
def balName (n : String) (ws : List Bal) : ℚ :=
  ((ws.filter fun w => w.name == n).map Bal.balance).sum

/-- Total debt of a losers list (`Math.abs` of each balance). -/
def sumDebt (ls : List Bal) : ℚ :=
  (ls.map fun l => |l.balance|).sum

theorem sumAmounts_cons (t : Payment) (ts : List Payment) :
    sumAmounts (t :: ts) = t.amount + sumAmounts ts := by
  simp [sumAmounts]

theorem sumFrom_cons (n : String) (t : Payment) (ts : List Payment) :
    sumFrom n (t :: ts) = (if t.from_ == n then t.amount else 0) + sumFrom n ts := by
  by_cases h : t.from_ == n <;> simp [sumFrom, List.filter_cons, h]

theorem countFrom_cons (n : String) (t : Payment) (ts : List Payment) :
    countFrom n (t :: ts) = (if t.from_ == n then 1 else 0) + countFrom n ts := by
  by_cases h : t.from_ == n <;> simp [countFrom, List.filter_cons, h, Nat.add_comm]

theorem sumTo_cons (n : String) (t : Payment) (ts : List Payment) :
    sumTo n (t :: ts) = (if t.to_ == n then t.amount else 0) + sumTo n ts := by
  by_cases h : t.to_ == n <;> simp [sumTo, List.filter_cons, h]

theorem countTo_cons (n : String) (t : Payment) (ts : List Payment) :
    countTo n (t :: ts) = (if t.to_ == n then 1 else 0) + countTo n ts := by
  by_cases h : t.to_ == n <;> simp [countTo, List.filter_cons, h, Nat.add_comm]

theorem sumBal_cons (w : Bal) (ws : List Bal) :
    sumBal (w :: ws) = w.balance + sumBal ws := by
  simp [sumBal]

theorem balName_cons (n : String) (w : Bal) (ws : List Bal) :
    balName n (w :: ws) = (if w.name == n then w.balance else 0) + balName n ws := by
  by_cases h : w.name == n <;> simp [balName, List.filter_cons, h]

theorem sumDebt_cons (l : Bal) (ls : List Bal) :
    sumDebt (l :: ls) = |l.balance| + sumDebt ls := by
  simp [sumDebt]

theorem sumAmounts_append (ps qs : List Payment) :
    sumAmounts (ps ++ qs) = sumAmounts ps + sumAmounts qs := by
  simp [sumAmounts]

theorem sumFrom_append (n : String) (ps qs : List Payment) :
    sumFrom n (ps ++ qs) = sumFrom n ps + sumFrom n qs := by
  simp [sumFrom]

theorem countFrom_append (n : String) (ps qs : List Payment) :
    countFrom n (ps ++ qs) = countFrom n ps + countFrom n qs := by
  simp [countFrom]

theorem sumTo_append (n : String) (ps qs : List Payment) :
    sumTo n (ps ++ qs) = sumTo n ps + sumTo n qs := by
  simp [sumTo]

theorem countTo_append (n : String) (ps qs : List Payment) :
    countTo n (ps ++ qs) = countTo n ps + countTo n qs := by
  simp [countTo]

/-! ### Arithmetic facts about `round2` -/

/-- A recorded (rounded) amount differs from the exact quantity by at
most half a cent. -/
theorem round2_close (q : ℚ) : |round2 q - q| ≤ 1 / 200 := by
  unfold round2
  have h1 : ((⌊q * 100 + 1 / 2⌋ : ℤ) : ℚ) ≤ q * 100 + 1 / 2 := Int.floor_le _
  have h2 : q * 100 + 1 / 2 < ((⌊q * 100 + 1 / 2⌋ : ℤ) : ℚ) + 1 := Int.lt_floor_add_one _
  rw [abs_le]
  constructor <;> linarith

/-- Rounding a positive quantity cannot go negative. -/
theorem round2_nonneg {q : ℚ} (h : 0 ≤ q) : 0 ≤ round2 q := by
  unfold round2
  have h0 : (0 : ℤ) ≤ ⌊q * 100 + 1 / 2⌋ := Int.floor_nonneg.mpr (by linarith)
  have : (0 : ℚ) ≤ ((⌊q * 100 + 1 / 2⌋ : ℤ) : ℚ) := by exact_mod_cast h0
  linarith

/-- Two sums whose 2-digit roundings agree are within a cent of each
other. -/
theorem round2_eq_close {a b : ℚ} (h : round2 a = round2 b) : |a - b| < 1 / 100 := by
  unfold round2 at h
  have hf : ⌊a * 100 + 1 / 2⌋ = ⌊b * 100 + 1 / 2⌋ := by
    have h100 := congrArg (fun x : ℚ => x * 100) h
    simp only [div_mul_cancel₀, ne_eq, OfNat.ofNat_ne_zero, not_false_eq_true] at h100
    exact_mod_cast h100
  have h1 : ((⌊a * 100 + 1 / 2⌋ : ℤ) : ℚ) ≤ a * 100 + 1 / 2 := Int.floor_le _
  have h2 : a * 100 + 1 / 2 < ((⌊a * 100 + 1 / 2⌋ : ℤ) : ℚ) + 1 := Int.lt_floor_add_one _
  have h3 : ((⌊b * 100 + 1 / 2⌋ : ℤ) : ℚ) ≤ b * 100 + 1 / 2 := Int.floor_le _
  have h4 : b * 100 + 1 / 2 < ((⌊b * 100 + 1 / 2⌋ : ℤ) : ℚ) + 1 := Int.lt_floor_add_one _
  rw [hf] at h1 h2
  rw [abs_lt]
  constructor <;> linarith

/-- A rational that is a whole number of cents. -/
def IsCents (q : ℚ) : Prop :=
  ∃ n : ℤ, q = n / 100

/-- Whole-cent amounts are fixed by `round2`. -/
theorem IsCents.round2_eq {q : ℚ} (h : IsCents q) : round2 q = q := by
  obtain ⟨n, rfl⟩ := h
  unfold round2
  have h1 : (n : ℚ) / 100 * 100 + 1 / 2 = (n : ℚ) + 1 / 2 := by ring
  rw [h1, Int.floor_int_add]
  norm_num

/-- A positive whole-cent amount is at least one cent. -/
theorem IsCents.one_cent_le {q : ℚ} (h : IsCents q) (hq : 0 < q) : 1 / 100 ≤ q := by
  obtain ⟨n, rfl⟩ := h
  have hn : (0 : ℤ) < n := by
    by_contra hc
    push_neg at hc
    have : (n : ℚ) ≤ 0 := by exact_mod_cast hc
    have : (n : ℚ) / 100 ≤ 0 := by linarith
    linarith
  have : (1 : ℤ) ≤ n := hn
  have : (1 : ℚ) ≤ (n : ℚ) := by exact_mod_cast this
  linarith

theorem IsCents.sub {a b : ℚ} (ha : IsCents a) (hb : IsCents b) : IsCents (a - b) := by
  obtain ⟨m, rfl⟩ := ha
  obtain ⟨n, rfl⟩ := hb
  exact ⟨m - n, by push_cast; ring⟩

theorem IsCents.min {a b : ℚ} (ha : IsCents a) (hb : IsCents b) : IsCents (min a b) := by
  rcases le_total a b with h | h
  · rwa [min_eq_left h]
  · rwa [min_eq_right h]

theorem IsCents.abs {a : ℚ} (ha : IsCents a) : IsCents |a| := by
  rcases abs_choice a with h | h
  · rwa [h]
  · rw [h]
    obtain ⟨n, rfl⟩ := ha
    exact ⟨-n, by push_cast; ring⟩

/-! ### Invariants of the inner while loop (`settleDebtor`) -/

theorem settleDebtor_nil (dn : String) (d : ℚ) :
    settleDebtor dn d [] = ([], [], d) := rfl

theorem settleDebtor_cons (dn : String) (d : ℚ) (w : Bal) (ws : List Bal) :
    settleDebtor dn d (w :: ws) =
      if 1 / 100 < d then
        if 0 < min d w.balance then
          ((⟨dn, w.name, round2 (min d w.balance)⟩ : Payment) ::
              (settleDebtor dn (d - min d w.balance) ws).1,
            (⟨w.name, w.balance - min d w.balance⟩ : Bal) ::
              (settleDebtor dn (d - min d w.balance) ws).2.1,
            (settleDebtor dn (d - min d w.balance) ws).2.2)
        else
          ((settleDebtor dn d ws).1, w :: (settleDebtor dn d ws).2.1,
            (settleDebtor dn d ws).2.2)
      else ([], w :: ws, d) := rfl

/-- The loop never renames or reorders the winners array, it only
replaces balances. -/
theorem settleDebtor_names (dn : String) (d : ℚ) (ws : List Bal) :
    (settleDebtor dn d ws).2.1.map Bal.name = ws.map Bal.name := by
  induction ws generalizing d with
  | nil => rfl
  | cons w ws ih =>
    rw [settleDebtor_cons]
    split_ifs with h1 h2
    · simp [ih]
    · simp [ih]
    · rfl

/-- Winner balances stay nonnegative: each payment is at most the
current residual balance. -/
theorem settleDebtor_nonneg {ws : List Bal} (dn : String) (d : ℚ)
    (hw : ∀ w ∈ ws, 0 ≤ w.balance) :
    ∀ w ∈ (settleDebtor dn d ws).2.1, 0 ≤ w.balance := by
  induction ws generalizing d with
  | nil => simp [settleDebtor_nil]
  | cons w ws ih =>
    rw [settleDebtor_cons]
    have hwt : ∀ x ∈ ws, 0 ≤ x.balance := fun x hx => hw x (List.mem_cons_of_mem _ hx)
    have hw0 : 0 ≤ w.balance := hw w (List.mem_cons_self _ _)
    split_ifs with h1 h2
    · intro x hx
      rcases List.mem_cons.mp hx with rfl | h
      · have : min d w.balance ≤ w.balance := min_le_right _ _
        simp only
        linarith
      · exact ih _ hwt x h
    · intro x hx
      rcases List.mem_cons.mp hx with rfl | h
      · exact hw0
      · exact ih _ hwt x h
    · exact hw

/-- The final remaining debt is nonnegative (given a nonnegative
starting debt). -/
theorem settleDebtor_debt_nonneg {d : ℚ} (dn : String) (ws : List Bal) (hd : 0 ≤ d) :
    0 ≤ (settleDebtor dn d ws).2.2 := by
  induction ws generalizing d with
  | nil => simpa [settleDebtor_nil] using hd
  | cons w ws ih =>
    rw [settleDebtor_cons]
    split_ifs with h1 h2
    · exact ih (by have := min_le_left d w.balance; linarith)
    · exact ih hd
    · simpa using hd

/-- The remaining debt never grows. -/
theorem settleDebtor_debt_le (dn : String) (d : ℚ) (ws : List Bal) :
    (settleDebtor dn d ws).2.2 ≤ d := by
  induction ws generalizing d with
  | nil => simp [settleDebtor_nil]
  | cons w ws ih =>
    rw [settleDebtor_cons]
    split_ifs with h1 h2
    · have := ih (d - min d w.balance)
      have hmin : 0 < min d w.balance := h2
      show (settleDebtor dn (d - min d w.balance) ws).2.2 ≤ d
      linarith
    · exact ih d
    · simp

/-- Exact conservation at the winners array: the total residual balance
drops by exactly the debt actually settled. -/
theorem settleDebtor_sumBal (dn : String) (d : ℚ) (ws : List Bal) :
    sumBal (settleDebtor dn d ws).2.1 = sumBal ws - (d - (settleDebtor dn d ws).2.2) := by
  induction ws generalizing d with
  | nil => simp [settleDebtor_nil]
  | cons w ws ih =>
    rw [settleDebtor_cons]
    split_ifs with h1 h2
    · have := ih (d := d - min d w.balance)
      simp only [sumBal_cons] at *
      linarith
    · have := ih (d := d)
      simp only [sumBal_cons] at *
      linarith
    · simp

/-- When the loop ends, either the debt fell to the 0.01 threshold or
every winner was drained: the leftover is at most
`max (1/100) (d - sumBal ws)`. -/
theorem settleDebtor_final_le {ws : List Bal} (dn : String) (d : ℚ)
    (hw : ∀ w ∈ ws, 0 ≤ w.balance) :
    (settleDebtor dn d ws).2.2 ≤ max (1 / 100) (d - sumBal ws) := by
  induction ws generalizing d with
  | nil =>
    have h0 : sumBal ([] : List Bal) = 0 := rfl
    simp only [settleDebtor_nil, h0, sub_zero]
    exact le_max_right _ _
  | cons w ws ih =>
    rw [settleDebtor_cons]
    have hw0 : 0 ≤ w.balance := hw w (List.mem_cons_self _ _)
    have hwt : ∀ x ∈ ws, 0 ≤ x.balance := fun x hx => hw x (List.mem_cons_of_mem _ hx)
    have hsum : 0 ≤ sumBal ws := by
      have hq : ∀ q ∈ ws.map Bal.balance, 0 ≤ q := by
        intro q hq
        obtain ⟨x, hx, rfl⟩ := List.mem_map.mp hq
        exact hwt x hx
      exact List.sum_nonneg hq
    split_ifs with h1 h2
    · show (settleDebtor dn (d - min d w.balance) ws).2.2 ≤
        max (1 / 100) (d - sumBal (w :: ws))
      rcases le_total w.balance d with hmin | hmin
      · have hmeq : min d w.balance = w.balance := min_eq_right hmin
        have hrec := ih (d - min d w.balance) hwt
        rw [hmeq] at hrec
        rw [hmeq]
        refine le_trans hrec ?_
        rw [sumBal_cons]
        exact max_le_max le_rfl (by linarith)
      · have hmeq : min d w.balance = d := min_eq_left hmin
        have hrec := ih (d - min d w.balance) hwt
        rw [hmeq] at hrec
        have hz : d - d - sumBal ws ≤ 1 / 100 := by linarith
        have hle : (settleDebtor dn (d - d) ws).2.2 ≤ 1 / 100 :=
          le_trans hrec (max_le le_rfl hz)
        rw [hmeq]
        exact le_trans hle (le_max_left _ _)
    · -- payment ≤ 0 with positive debt: the head winner is drained (balance 0)
      show (settleDebtor dn d ws).2.2 ≤ max (1 / 100) (d - sumBal (w :: ws))
      have hble : w.balance ≤ d := by
        by_contra hc
        push_neg at hc
        have hmeq : min d w.balance = d := min_eq_left (le_of_lt hc)
        rw [hmeq] at h2
        exact h2 (by linarith)
      have hmeq : min d w.balance = w.balance := min_eq_right hble
      have hwz : w.balance = 0 := by
        rw [hmeq] at h2
        push_neg at h2
        linarith
      have hrec := ih d hwt
      rw [sumBal_cons, hwz, zero_add]
      exact hrec
    · show d ≤ max (1 / 100) (d - sumBal (w :: ws))
      exact le_max_of_le_left (le_of_not_lt h1)

/-- Every payment of one loser's loop is sent by that loser. -/
theorem settleDebtor_from (dn : String) (d : ℚ) (ws : List Bal) :
    ∀ t ∈ (settleDebtor dn d ws).1, t.from_ = dn := by
  induction ws generalizing d with
  | nil => simp [settleDebtor_nil]
  | cons w ws ih =>
    rw [settleDebtor_cons]
    split_ifs with h1 h2
    · intro t ht
      rcases List.mem_cons.mp ht with rfl | h
      · rfl
      · exact ih _ t h
    · exact ih _
    · simp

/-- Every payment of one loser's loop is received by a name from the
winners array. -/
theorem settleDebtor_to (dn : String) (d : ℚ) (ws : List Bal) :
    ∀ t ∈ (settleDebtor dn d ws).1, t.to_ ∈ ws.map Bal.name := by
  induction ws generalizing d with
  | nil => simp [settleDebtor_nil]
  | cons w ws ih =>
    rw [settleDebtor_cons]
    split_ifs with h1 h2
    · intro t ht
      rcases List.mem_cons.mp ht with rfl | h
      · exact List.mem_cons_self _ _
      · exact List.mem_cons_of_mem _ (ih _ t h)
    · intro t ht
      exact List.mem_cons_of_mem _ (ih _ t ht)
    · simp

/-- Every recorded amount is `round2` of the positive exact payment, so
it is nonnegative. -/
theorem settleDebtor_amounts_nonneg (dn : String) (d : ℚ) (ws : List Bal) :
    ∀ t ∈ (settleDebtor dn d ws).1, 0 ≤ t.amount := by
  induction ws generalizing d with
  | nil => simp [settleDebtor_nil]
  | cons w ws ih =>
    rw [settleDebtor_cons]
    split_ifs with h1 h2
    · intro t ht
      rcases List.mem_cons.mp ht with rfl | h
      · exact round2_nonneg (le_of_lt h2)
      · exact ih _ t h
    · exact ih _
    · simp

/-- The recorded amounts of one loser's loop track the exactly settled
debt up to half a cent per transfer. -/
theorem settleDebtor_sumAmounts (dn : String) (d : ℚ) (ws : List Bal) :
    |sumAmounts (settleDebtor dn d ws).1 - (d - (settleDebtor dn d ws).2.2)| ≤
      ((settleDebtor dn d ws).1.length : ℚ) / 200 := by
  induction ws generalizing d with
  | nil => simp [settleDebtor_nil, sumAmounts]
  | cons w ws ih =>
    rw [settleDebtor_cons]
    split_ifs with h1 h2
    · show |sumAmounts (_ :: (settleDebtor dn (d - min d w.balance) ws).1) - _| ≤ _
      rw [sumAmounts_cons]
      have hrec := ih (d - min d w.balance)
      have hr := round2_close (min d w.balance)
      have habs :
          |round2 (min d w.balance) + sumAmounts (settleDebtor dn (d - min d w.balance) ws).1 -
              (d - (settleDebtor dn (d - min d w.balance) ws).2.2)| ≤
            |round2 (min d w.balance) - min d w.balance| +
              |sumAmounts (settleDebtor dn (d - min d w.balance) ws).1 -
                (d - min d w.balance - (settleDebtor dn (d - min d w.balance) ws).2.2)| := by
        have heq :
            round2 (min d w.balance) + sumAmounts (settleDebtor dn (d - min d w.balance) ws).1 -
                (d - (settleDebtor dn (d - min d w.balance) ws).2.2) =
              (round2 (min d w.balance) - min d w.balance) +
                (sumAmounts (settleDebtor dn (d - min d w.balance) ws).1 -
                  (d - min d w.balance - (settleDebtor dn (d - min d w.balance) ws).2.2)) := by
          ring
        rw [heq]
        exact abs_add _ _
      refine le_trans habs ?_
      simp only [List.length_cons]
      push_cast
      linarith
    · exact ih _
    · simp [sumAmounts]

/-- Per-creditor accounting for one loser's loop: what a name receives
equals what its balance entries lose, up to half a cent per transfer. -/
theorem settleDebtor_balName (dn : String) (d : ℚ) (ws : List Bal) (n : String) :
    |sumTo n (settleDebtor dn d ws).1 -
        (balName n ws - balName n (settleDebtor dn d ws).2.1)| ≤
      (countTo n (settleDebtor dn d ws).1 : ℚ) / 200 := by
  induction ws generalizing d with
  | nil => simp [settleDebtor_nil, sumTo, countTo, balName]
  | cons w ws ih =>
    rw [settleDebtor_cons]
    split_ifs with h1 h2
    · show |sumTo n (_ :: (settleDebtor dn (d - min d w.balance) ws).1) -
          (balName n (w :: ws) - balName n (_ :: (settleDebtor dn (d - min d w.balance) ws).2.1))| ≤
        (countTo n (_ :: (settleDebtor dn (d - min d w.balance) ws).1) : ℚ) / 200
      rw [sumTo_cons, countTo_cons, balName_cons, balName_cons]
      have hrec := ih (d - min d w.balance)
      by_cases hn : w.name == n
      · simp only [hn, if_pos]
        have hr := round2_close (min d w.balance)
        have heq :
            round2 (min d w.balance) + sumTo n (settleDebtor dn (d - min d w.balance) ws).1 -
                (w.balance + balName n ws -
                  ((w.balance - min d w.balance) +
                    balName n (settleDebtor dn (d - min d w.balance) ws).2.1)) =
              (round2 (min d w.balance) - min d w.balance) +
                (sumTo n (settleDebtor dn (d - min d w.balance) ws).1 -
                  (balName n ws - balName n (settleDebtor dn (d - min d w.balance) ws).2.1)) := by
          ring
        rw [heq]
        refine le_trans (abs_add _ _) ?_
        push_cast
        linarith
      · simp only [hn, if_neg, Bool.false_eq_true, not_false_eq_true, zero_add]
        simpa using hrec
    · show |sumTo n (settleDebtor dn d ws).1 -
          (balName n (w :: ws) - balName n (w :: (settleDebtor dn d ws).2.1))| ≤
        (countTo n (settleDebtor dn d ws).1 : ℚ) / 200
      rw [balName_cons, balName_cons]
      have heq : (if w.name == n then w.balance else 0) + balName n ws -
          ((if w.name == n then w.balance else 0) + balName n (settleDebtor dn d ws).2.1) =
            balName n ws - balName n (settleDebtor dn d ws).2.1 := by
        ring
      rw [heq]
      exact ih _
    · simp [sumTo, countTo]

/-- On whole-cent data the loop stays in whole cents, and every
recorded amount is the exact (unchanged by rounding) positive payment. -/
theorem settleDebtor_cents {d : ℚ} {ws : List Bal} (dn : String)
    (hd : IsCents d) (hw : ∀ w ∈ ws, IsCents w.balance) :
    (∀ t ∈ (settleDebtor dn d ws).1, 0 < t.amount) ∧
      (∀ w ∈ (settleDebtor dn d ws).2.1, IsCents w.balance) ∧
      IsCents (settleDebtor dn d ws).2.2 := by
  induction ws generalizing d with
  | nil =>
    refine ⟨by simp [settleDebtor_nil], by simp [settleDebtor_nil], ?_⟩
    simpa [settleDebtor_nil] using hd
  | cons w ws ih =>
    have hw0 : IsCents w.balance := hw w (List.mem_cons_self _ _)
    have hwt : ∀ x ∈ ws, IsCents x.balance := fun x hx => hw x (List.mem_cons_of_mem _ hx)
    rw [settleDebtor_cons]
    split_ifs with h1 h2
    · have hpc : IsCents (min d w.balance) := IsCents.min hd hw0
      have hrec := ih (IsCents.sub hd hpc) hwt
      refine ⟨?_, ?_, hrec.2.2⟩
      · intro t ht
        rcases List.mem_cons.mp ht with rfl | h
        · show 0 < round2 (min d w.balance)
          rw [IsCents.round2_eq hpc]
          exact h2
        · exact hrec.1 t h
      · intro x hx
        rcases List.mem_cons.mp hx with rfl | h
        · exact IsCents.sub hw0 hpc
        · exact hrec.2.1 x h
    · have hrec := ih hd hwt
      refine ⟨hrec.1, ?_, hrec.2.2⟩
      intro x hx
      rcases List.mem_cons.mp hx with rfl | h
      · exact hw0
      · exact hrec.2.1 x h
    · exact ⟨by simp, by simpa using hw, hd⟩

/-! ### The `losers.forEach` loop -/

/-- The payments emitted by the `forEach` loop: one block per loser, in
loser order, with the winners array threaded through. -/
def debtBlocks (ws : List Bal) : List Bal → List Payment
  | [] => []
  | l :: ls =>
    (settleDebtor l.name |l.balance| ws).1 ++
      debtBlocks (settleDebtor l.name |l.balance| ws).2.1 ls

/-- The winners array after the whole `forEach` loop. -/
def finalWinners (ws : List Bal) : List Bal → List Bal
  | [] => ws
  | l :: ls => finalWinners (settleDebtor l.name |l.balance| ws).2.1 ls

theorem foldl_settleStep (ls : List Bal) :
    ∀ (acc : List Payment) (ws : List Bal),
      ls.foldl settleStep (acc, ws) = (acc ++ debtBlocks ws ls, finalWinners ws ls) := by
  induction ls with
  | nil =>
    intro acc ws
    simp [debtBlocks, finalWinners]
  | cons l ls ih =>
    intro acc ws
    simp only [List.foldl_cons, settleStep, debtBlocks, finalWinners]
    rw [ih]
    simp [List.append_assoc]

/-- `calculatePayments` is the concatenation of the per-loser payment
blocks. -/
theorem calculatePayments_eq (players : List Player) :
    calculatePayments players = debtBlocks (winnersOf players) (losersOf players) := by
  unfold calculatePayments
  rw [foldl_settleStep]
  simp

theorem finalWinners_names (ls : List Bal) :
    ∀ ws : List Bal, (finalWinners ws ls).map Bal.name = ws.map Bal.name := by
  induction ls with
  | nil => intro ws; rfl
  | cons l ls ih =>
    intro ws
    show (finalWinners (settleDebtor l.name |l.balance| ws).2.1 ls).map Bal.name = _
    rw [ih, settleDebtor_names]

theorem finalWinners_nonneg (ls : List Bal) :
    ∀ ws : List Bal, (∀ w ∈ ws, 0 ≤ w.balance) →
      ∀ w ∈ finalWinners ws ls, 0 ≤ w.balance := by
  induction ls with
  | nil => intro ws hw; exact hw
  | cons l ls ih =>
    intro ws hw
    exact ih _ (settleDebtor_nonneg _ _ hw)

/-- Every emitted payment is sent by one of the losers. -/
theorem debtBlocks_from (ls : List Bal) :
    ∀ ws : List Bal, ∀ t ∈ debtBlocks ws ls, ∃ l ∈ ls, t.from_ = l.name := by
  induction ls with
  | nil => simp [debtBlocks]
  | cons l ls ih =>
    intro ws t ht
    rcases List.mem_append.mp ht with h | h
    · exact ⟨l, List.mem_cons_self _ _, settleDebtor_from _ _ _ t h⟩
    · obtain ⟨l', hl', he⟩ := ih _ t h
      exact ⟨l', List.mem_cons_of_mem _ hl', he⟩

/-- Every emitted payment is received by a name of the winners array. -/
theorem debtBlocks_to (ls : List Bal) :
    ∀ ws : List Bal, ∀ t ∈ debtBlocks ws ls, t.to_ ∈ ws.map Bal.name := by
  induction ls with
  | nil => simp [debtBlocks]
  | cons l ls ih =>
    intro ws t ht
    rcases List.mem_append.mp ht with h | h
    · exact settleDebtor_to _ _ _ t h
    · have := ih _ t h
      rwa [settleDebtor_names] at this

/-- Every recorded amount in the output is nonnegative. -/
theorem debtBlocks_amounts_nonneg (ls : List Bal) :
    ∀ ws : List Bal, ∀ t ∈ debtBlocks ws ls, 0 ≤ t.amount := by
  induction ls with
  | nil => simp [debtBlocks]
  | cons l ls ih =>
    intro ws t ht
    rcases List.mem_append.mp ht with h | h
    · exact settleDebtor_amounts_nonneg _ _ _ t h
    · exact ih _ t h

/-- On whole-cent balances every recorded amount is strictly positive. -/
theorem debtBlocks_amounts_pos (ls : List Bal) :
    ∀ ws : List Bal, (∀ w ∈ ws, IsCents w.balance) → (∀ l ∈ ls, IsCents l.balance) →
      ∀ t ∈ debtBlocks ws ls, 0 < t.amount := by
  induction ls with
  | nil => simp [debtBlocks]
  | cons l ls ih =>
    intro ws hw hl t ht
    have hc := settleDebtor_cents (d := |l.balance|) l.name
      (IsCents.abs (hl l (List.mem_cons_self _ _))) hw
    rcases List.mem_append.mp ht with h | h
    · exact hc.1 t h
    · exact ih _ hc.2.1 (fun x hx => hl x (List.mem_cons_of_mem _ hx)) t h

theorem sumFrom_eq_sumAmounts {n : String} {ps : List Payment}
    (h : ∀ t ∈ ps, t.from_ = n) : sumFrom n ps = sumAmounts ps ∧ countFrom n ps = ps.length := by
  induction ps with
  | nil => exact ⟨rfl, rfl⟩
  | cons t ts ih =>
    have ht : t.from_ = n := h t (List.mem_cons_self _ _)
    have hts := ih fun x hx => h x (List.mem_cons_of_mem _ hx)
    rw [sumFrom_cons, countFrom_cons, sumAmounts_cons, List.length_cons]
    have : (t.from_ == n) = true := by simp [ht]
    rw [this]
    simp only [if_pos]
    constructor
    · rw [hts.1]
    · rw [hts.2]; ring

theorem sumFrom_eq_zero {n : String} {ps : List Payment}
    (h : ∀ t ∈ ps, t.from_ ≠ n) : sumFrom n ps = 0 ∧ countFrom n ps = 0 := by
  induction ps with
  | nil => exact ⟨rfl, rfl⟩
  | cons t ts ih =>
    have ht : t.from_ ≠ n := h t (List.mem_cons_self _ _)
    have hts := ih fun x hx => h x (List.mem_cons_of_mem _ hx)
    rw [sumFrom_cons, countFrom_cons]
    have : (t.from_ == n) = false := by simp [ht]
    rw [this]
    simp only [Bool.false_eq_true, if_neg, not_false_eq_true, zero_add]
    exact hts

theorem sumDebt_nonneg (ls : List Bal) : 0 ≤ sumDebt ls := by
  induction ls with
  | nil => simp [sumDebt]
  | cons l ls ih =>
    rw [sumDebt_cons]
    have := abs_nonneg l.balance
    linarith

theorem balName_nonneg {ws : List Bal} (n : String) (hw : ∀ w ∈ ws, 0 ≤ w.balance) :
    0 ≤ balName n ws := by
  induction ws with
  | nil => simp [balName]
  | cons w ws ih =>
    rw [balName_cons]
    have h0 := hw w (List.mem_cons_self _ _)
    have ht := ih fun x hx => hw x (List.mem_cons_of_mem _ hx)
    split_ifs <;> linarith

theorem balName_le_sumBal {ws : List Bal} (n : String) (hw : ∀ w ∈ ws, 0 ≤ w.balance) :
    balName n ws ≤ sumBal ws := by
  induction ws with
  | nil => simp [balName, sumBal]
  | cons w ws ih =>
    rw [balName_cons, sumBal_cons]
    have h0 := hw w (List.mem_cons_self _ _)
    have ht := ih fun x hx => hw x (List.mem_cons_of_mem _ hx)
    split_ifs <;> linarith

/-- Debtor-side conservation over the whole loop: what loser `l` pays
is its debt, up to the final leftover (at most the 0.01 threshold or
the global shortfall of credits) and half a cent per transfer. -/
theorem debtBlocks_sumFrom (ls : List Bal) :
    ∀ ws : List Bal, (∀ w ∈ ws, 0 ≤ w.balance) → ((ls.map Bal.name).Nodup) →
      ∀ l ∈ ls,
        abs (sumFrom l.name (debtBlocks ws ls) - |l.balance|) ≤
          max (1 / 100) (sumDebt ls - sumBal ws) +
            (countFrom l.name (debtBlocks ws ls) : ℚ) / 200 := by
  induction ls with
  | nil => simp [debtBlocks]
  | cons l0 ls ih =>
    intro ws hw hnd l hl
    have hnd0 : l0.name ∉ ls.map Bal.name := (List.nodup_cons.mp hnd).1
    have hndt : (ls.map Bal.name).Nodup := (List.nodup_cons.mp hnd).2
    have hfrom0 : ∀ t ∈ (settleDebtor l0.name |l0.balance| ws).1, t.from_ = l0.name :=
      settleDebtor_from _ _ _
    have hfromRest : ∀ t ∈ debtBlocks (settleDebtor l0.name |l0.balance| ws).2.1 ls,
        ∃ x ∈ ls, t.from_ = x.name := debtBlocks_from _ _
    have hwt : ∀ w ∈ (settleDebtor l0.name |l0.balance| ws).2.1, 0 ≤ w.balance :=
      settleDebtor_nonneg _ _ hw
    simp only [debtBlocks]
    rw [sumFrom_append, countFrom_append]
    rcases List.mem_cons.mp hl with rfl | hmem
    · -- the head loser: its block pays it, the rest pays other names
      have hz : sumFrom l.name (debtBlocks (settleDebtor l.name |l.balance| ws).2.1 ls) = 0 ∧
          countFrom l.name (debtBlocks (settleDebtor l.name |l.balance| ws).2.1 ls) = 0 := by
        apply sumFrom_eq_zero
        intro t ht
        obtain ⟨x, hx, he⟩ := hfromRest t ht
        rw [he]
        intro hc
        exact hnd0 (hc ▸ List.mem_map_of_mem Bal.name hx)
      have hs := sumFrom_eq_sumAmounts hfrom0
      rw [hz.1, hz.2, hs.1, hs.2]
      have hB := settleDebtor_sumAmounts l.name |l.balance| ws
      have hfd0 : 0 ≤ (settleDebtor l.name |l.balance| ws).2.2 :=
        settleDebtor_debt_nonneg _ _ (abs_nonneg _)
      have hfd1 : (settleDebtor l.name |l.balance| ws).2.2 ≤
          max (1 / 100) (|l.balance| - sumBal ws) := settleDebtor_final_le _ _ hw
      have hmax : max (1 / 100) (|l.balance| - sumBal ws) ≤
          max (1 / 100) (sumDebt (l :: ls) - sumBal ws) := by
        apply max_le_max le_rfl
        rw [sumDebt_cons]
        have := sumDebt_nonneg ls
        linarith
      have heq : sumAmounts (settleDebtor l.name |l.balance| ws).1 + 0 - |l.balance| =
          (sumAmounts (settleDebtor l.name |l.balance| ws).1 -
              (|l.balance| - (settleDebtor l.name |l.balance| ws).2.2)) +
            (-(settleDebtor l.name |l.balance| ws).2.2) := by ring
      rw [heq]
      refine le_trans (abs_add _ _) ?_
      rw [abs_neg, abs_of_nonneg hfd0]
      push_cast
      linarith
    · -- a later loser: the head block pays only the head's name
      have hz : sumFrom l.name (settleDebtor l0.name |l0.balance| ws).1 = 0 ∧
          countFrom l.name (settleDebtor l0.name |l0.balance| ws).1 = 0 := by
        apply sumFrom_eq_zero
        intro t ht
        rw [hfrom0 t ht]
        intro hc
        exact hnd0 (hc ▸ List.mem_map_of_mem Bal.name hmem)
      rw [hz.1, hz.2]
      have hrec := ih _ hwt hndt l hmem
      have hmax : max (1 / 100)
          (sumDebt ls - sumBal (settleDebtor l0.name |l0.balance| ws).2.1) ≤
            max (1 / 100) (sumDebt (l0 :: ls) - sumBal ws) := by
        apply max_le_max le_rfl
        have hsb := settleDebtor_sumBal l0.name |l0.balance| ws
        have hfd0 : 0 ≤ (settleDebtor l0.name |l0.balance| ws).2.2 :=
          settleDebtor_debt_nonneg _ _ (abs_nonneg _)
        rw [sumDebt_cons, hsb]
        linarith
      push_cast
      push_cast at hrec
      simp only [zero_add, Nat.cast_zero]
      linarith

/-- Creditor-side accounting over the whole loop: what name `n`
receives equals what its winners entries lose, up to half a cent per
transfer. -/
theorem debtBlocks_sumTo (ls : List Bal) :
    ∀ ws : List Bal, ∀ n : String,
      |sumTo n (debtBlocks ws ls) - (balName n ws - balName n (finalWinners ws ls))| ≤
        (countTo n (debtBlocks ws ls) : ℚ) / 200 := by
  induction ls with
  | nil =>
    intro ws n
    simp [debtBlocks, finalWinners, sumTo, countTo]
  | cons l ls ih =>
    intro ws n
    simp only [debtBlocks, finalWinners]
    rw [sumTo_append, countTo_append]
    have h1 := settleDebtor_balName l.name |l.balance| ws n
    have h2 := ih (settleDebtor l.name |l.balance| ws).2.1 n
    have heq : sumTo n (settleDebtor l.name |l.balance| ws).1 +
        sumTo n (debtBlocks (settleDebtor l.name |l.balance| ws).2.1 ls) -
          (balName n ws -
            balName n (finalWinners (settleDebtor l.name |l.balance| ws).2.1 ls)) =
        (sumTo n (settleDebtor l.name |l.balance| ws).1 -
            (balName n ws - balName n (settleDebtor l.name |l.balance| ws).2.1)) +
          (sumTo n (debtBlocks (settleDebtor l.name |l.balance| ws).2.1 ls) -
            (balName n (settleDebtor l.name |l.balance| ws).2.1 -
              balName n (finalWinners (settleDebtor l.name |l.balance| ws).2.1 ls))) := by
      ring
    rw [heq]
    refine le_trans (abs_add _ _) ?_
    push_cast
    linarith

/-- The residual credit left in the winners array after the loop is at
most a cent per loser plus the starting surplus of credits. -/
theorem finalWinners_sumBal (ls : List Bal) :
    ∀ ws : List Bal, (∀ w ∈ ws, 0 ≤ w.balance) →
      sumDebt ls - sumBal ws ≤ 1 / 100 →
      sumBal (finalWinners ws ls) ≤ (sumBal ws - sumDebt ls) + (ls.length : ℚ) / 100 := by
  induction ls with
  | nil =>
    intro ws hw hb
    simp [finalWinners, sumDebt]
  | cons l ls ih =>
    intro ws hw hb
    have hwt : ∀ w ∈ (settleDebtor l.name |l.balance| ws).2.1, 0 ≤ w.balance :=
      settleDebtor_nonneg _ _ hw
    have hsb := settleDebtor_sumBal l.name |l.balance| ws
    have hfd0 : 0 ≤ (settleDebtor l.name |l.balance| ws).2.2 :=
      settleDebtor_debt_nonneg _ _ (abs_nonneg _)
    have hfd1 : (settleDebtor l.name |l.balance| ws).2.2 ≤
        max (1 / 100) (|l.balance| - sumBal ws) := settleDebtor_final_le _ _ hw
    have hd1 : |l.balance| - sumBal ws ≤ sumDebt (l :: ls) - sumBal ws := by
      rw [sumDebt_cons]
      have := sumDebt_nonneg ls
      linarith
    have hfd2 : (settleDebtor l.name |l.balance| ws).2.2 ≤ 1 / 100 :=
      le_trans hfd1 (max_le le_rfl (by linarith))
    have hb' : sumDebt ls - sumBal (settleDebtor l.name |l.balance| ws).2.1 ≤ 1 / 100 := by
      rw [hsb, sumDebt_cons] at *
      linarith
    have hrec := ih _ hwt hb'
    show sumBal (finalWinners (settleDebtor l.name |l.balance| ws).2.1 ls) ≤ _
    rw [sumDebt_cons]
    rw [hsb] at hrec
    simp only [List.length_cons]
    push_cast
    linarith

/-! ### The sorting steps are permutations -/

theorem insertDesc_perm (x : Bal) (l : List Bal) : (insertDesc x l).Perm (x :: l) := by
  induction l with
  | nil => exact List.Perm.refl _
  | cons y ys ih =>
    show (if y.balance ≤ x.balance then x :: y :: ys else y :: insertDesc x ys).Perm _
    split_ifs with h
    · exact List.Perm.refl _
    · exact List.Perm.trans (List.Perm.cons y ih) (List.Perm.swap x y ys)

theorem sortDesc_perm (l : List Bal) : (sortDesc l).Perm l := by
  induction l with
  | nil => exact List.Perm.refl _
  | cons x xs ih =>
    show (insertDesc x (sortDesc xs)).Perm (x :: xs)
    exact List.Perm.trans (insertDesc_perm x (sortDesc xs)) (List.Perm.cons x ih)

theorem insertAsc_perm (x : Bal) (l : List Bal) : (insertAsc x l).Perm (x :: l) := by
  induction l with
  | nil => exact List.Perm.refl _
  | cons y ys ih =>
    show (if x.balance ≤ y.balance then x :: y :: ys else y :: insertAsc x ys).Perm _
    split_ifs with h
    · exact List.Perm.refl _
    · exact List.Perm.trans (List.Perm.cons y ih) (List.Perm.swap x y ys)

theorem sortAsc_perm (l : List Bal) : (sortAsc l).Perm l := by
  induction l with
  | nil => exact List.Perm.refl _
  | cons x xs ih =>
    show (insertAsc x (sortAsc xs)).Perm (x :: xs)
    exact List.Perm.trans (insertAsc_perm x (sortAsc xs)) (List.Perm.cons x ih)

theorem balName_perm {l₁ l₂ : List Bal} (h : l₁.Perm l₂) (n : String) :
    balName n l₁ = balName n l₂ :=
  List.Perm.sum_eq (List.Perm.map Bal.balance (List.Perm.filter _ h))

theorem sumBal_perm {l₁ l₂ : List Bal} (h : l₁.Perm l₂) : sumBal l₁ = sumBal l₂ :=
  List.Perm.sum_eq (List.Perm.map Bal.balance h)

theorem sumDebt_perm {l₁ l₂ : List Bal} (h : l₁.Perm l₂) : sumDebt l₁ = sumDebt l₂ :=
  List.Perm.sum_eq (List.Perm.map _ h)

/-! ### Names through the filtering pipeline -/

theorem posPart_name {pb : NetBalance} {b : Bal} (h : posPart pb = some b) :
    b.name = pb.name ∧ ∃ q, pb.balance = some q ∧ 0 < q ∧ b.balance = q := by
  unfold posPart at h
  rcases hb : pb.balance with _ | q
  · rw [hb] at h; cases h
  · rw [hb] at h
    dsimp only at h
    split_ifs at h with hq
    cases h
    exact ⟨rfl, q, rfl, hq, rfl⟩

theorem negPart_name {pb : NetBalance} {b : Bal} (h : negPart pb = some b) :
    b.name = pb.name ∧ ∃ q, pb.balance = some q ∧ q < 0 ∧ b.balance = q := by
  unfold negPart at h
  rcases hb : pb.balance with _ | q
  · rw [hb] at h; cases h
  · rw [hb] at h
    dsimp only at h
    split_ifs at h with hq
    cases h
    exact ⟨rfl, q, rfl, hq, rfl⟩

theorem filterMap_names_sublist (f : NetBalance → Option Bal)
    (hf : ∀ pb b, f pb = some b → b.name = pb.name) (pbs : List NetBalance) :
    ((pbs.filterMap f).map Bal.name).Sublist (pbs.map NetBalance.name) := by
  induction pbs with
  | nil => simp
  | cons pb pbs ih =>
    rw [List.filterMap_cons]
    rcases hfb : f pb with _ | b
    · exact List.Sublist.cons _ ih
    · rw [List.map_cons, List.map_cons, hf pb b hfb]
      exact List.Sublist.cons₂ _ ih

theorem playerBalances_names (players : List Player) :
    (playerBalances players).map NetBalance.name = players.map Player.name := by
  unfold playerBalances
  rw [List.map_map]
  rfl

/-- `new Set(names).size === names.length` exactly characterizes
freedom from duplicates. -/
theorem dedup_length_eq_iff {l : List String} : l.dedup.length = l.length ↔ l.Nodup := by
  constructor
  · intro h
    have he : l.dedup = l := List.Sublist.eq_of_length (List.dedup_sublist l) h
    rw [← he]
    exact List.nodup_dedup l
  · intro h
    rw [List.Nodup.dedup h]

theorem hasDuplicateNames_false_iff (players : List Player) :
    hasDuplicateNames players = false ↔
      (players.map fun p => normalizeName p.name).Nodup := by
  unfold hasDuplicateNames
  rw [decide_eq_false_iff_not, not_ne_iff]
  exact dedup_length_eq_iff

/-- Distinct normalized names force distinct raw names. -/
theorem raw_names_nodup {players : List Player}
    (h : hasDuplicateNames players = false) : (players.map Player.name).Nodup := by
  rw [hasDuplicateNames_false_iff] at h
  have : (players.map fun p => normalizeName p.name) =
      (players.map Player.name).map normalizeName := by
    rw [List.map_map]
    rfl
  rw [this] at h
  exact List.Nodup.of_map _ h

theorem winnersOf_names_nodup {players : List Player}
    (h : (players.map Player.name).Nodup) : ((winnersOf players).map Bal.name).Nodup := by
  unfold winnersOf
  have hperm := List.Perm.map Bal.name (sortDesc_perm ((playerBalances players).filterMap posPart))
  rw [List.Perm.nodup_iff hperm]
  exact List.Sublist.nodup
    (filterMap_names_sublist posPart (fun pb b hb => (posPart_name hb).1) _)
    (by rwa [playerBalances_names])

theorem losersOf_names_nodup {players : List Player}
    (h : (players.map Player.name).Nodup) : ((losersOf players).map Bal.name).Nodup := by
  unfold losersOf
  have hperm := List.Perm.map Bal.name (sortAsc_perm ((playerBalances players).filterMap negPart))
  rw [List.Perm.nodup_iff hperm]
  exact List.Sublist.nodup
    (filterMap_names_sublist negPart (fun pb b hb => (negPart_name hb).1) _)
    (by rwa [playerBalances_names])

theorem balName_eq_zero {n : String} {ws : List Bal} (h : n ∉ ws.map Bal.name) :
    balName n ws = 0 := by
  induction ws with
  | nil => rfl
  | cons w ws ih =>
    rw [balName_cons]
    have hne : w.name ≠ n := by
      intro hc
      exact h (hc ▸ List.mem_cons_self _ _)
    have : (w.name == n) = false := by simp [hne]
    rw [this]
    simp only [Bool.false_eq_true, if_neg, not_false_eq_true, zero_add]
    exact ih fun hc => h (List.mem_cons_of_mem _ hc)

theorem balName_filterMap_pos (pbs : List NetBalance)
    (hnd : (pbs.map NetBalance.name).Nodup) {n : String} {b : ℚ}
    (hmem : (⟨n, some b⟩ : NetBalance) ∈ pbs) (hb : 0 < b) :
    balName n (pbs.filterMap posPart) = b := by
  induction pbs with
  | nil => cases hmem
  | cons pb pbs ih =>
    rw [List.map_cons, List.nodup_cons] at hnd
    rw [List.filterMap_cons]
    rcases List.mem_cons.mp hmem with heq | hmem'
    · rw [← heq]
      have hpp : posPart ⟨n, some b⟩ = some ⟨n, b⟩ := by
        unfold posPart
        simp [hb]
      rw [hpp]
      show balName n ((⟨n, b⟩ : Bal) :: pbs.filterMap posPart) = b
      rw [balName_cons]
      have hz : balName n (pbs.filterMap posPart) = 0 := by
        apply balName_eq_zero
        intro hc
        have hsub := filterMap_names_sublist posPart
          (fun pb b hb => (posPart_name hb).1) pbs
        have : n ∈ pbs.map NetBalance.name := hsub.subset hc
        rw [← heq] at hnd
        exact hnd.1 this
      rw [hz]
      simp
    · have hne : pb.name ≠ n := by
        intro hc
        apply hnd.1
        rw [hc]
        exact List.mem_map_of_mem NetBalance.name hmem'
      rcases hpp : posPart pb with _ | w
      · exact ih hnd.2 hmem'
      · rw [balName_cons]
        have hwn : w.name = pb.name := (posPart_name hpp).1
        have : (w.name == n) = false := by simp [hwn, hne]
        rw [this]
        simp only [Bool.false_eq_true, if_neg, not_false_eq_true, zero_add]
        exact ih hnd.2 hmem'

theorem mem_winnersOf {players : List Player} {n : String} {b : ℚ}
    (hmem : (⟨n, some b⟩ : NetBalance) ∈ playerBalances players) (hb : 0 < b) :
    (⟨n, b⟩ : Bal) ∈ winnersOf players := by
  unfold winnersOf
  rw [List.Perm.mem_iff (sortDesc_perm _)]
  apply List.mem_filterMap.mpr
  refine ⟨⟨n, some b⟩, hmem, ?_⟩
  unfold posPart
  simp [hb]

theorem mem_losersOf {players : List Player} {n : String} {b : ℚ}
    (hmem : (⟨n, some b⟩ : NetBalance) ∈ playerBalances players) (hb : b < 0) :
    (⟨n, b⟩ : Bal) ∈ losersOf players := by
  unfold losersOf
  rw [List.Perm.mem_iff (sortAsc_perm _)]
  apply List.mem_filterMap.mpr
  refine ⟨⟨n, some b⟩, hmem, ?_⟩
  unfold negPart
  simp [hb]

theorem balName_winnersOf {players : List Player}
    (hnd : (players.map Player.name).Nodup) {n : String} {b : ℚ}
    (hmem : (⟨n, some b⟩ : NetBalance) ∈ playerBalances players) (hb : 0 < b) :
    balName n (winnersOf players) = b := by
  unfold winnersOf
  rw [balName_perm (sortDesc_perm _)]
  exact balName_filterMap_pos _ (by rwa [playerBalances_names]) hmem hb

/-! ### Totals: winners' credit minus losers' debt is the session net -/

theorem foldl_add_sum {α : Type} (f : α → ℚ) (l : List α) :
    ∀ a : ℚ, l.foldl (fun s x => s + f x) a = a + (l.map f).sum := by
  induction l with
  | nil => intro a; simp
  | cons x xs ih =>
    intro a
    rw [List.foldl_cons, ih, List.map_cons, List.sum_cons]
    ring

theorem buyInTotal_eq (players : List Player) :
    buyInTotal players = (players.map fun p => (jsParseFloat p.buyIn).getD 0).sum := by
  unfold buyInTotal
  rw [foldl_add_sum]
  ring

theorem cashOutTotal_eq (players : List Player) :
    cashOutTotal players = (players.map fun p => (jsParseFloat p.cashOut).getD 0).sum := by
  unfold cashOutTotal
  rw [foldl_add_sum]
  ring

/-- Splitting the parsed balances by sign: positive credit minus
absolute debt is the plain (0-defaulted) total. -/
theorem split_filterMap (pbs : List NetBalance) :
    sumBal (pbs.filterMap posPart) - sumDebt (pbs.filterMap negPart) =
      (pbs.map fun pb => pb.balance.getD 0).sum := by
  induction pbs with
  | nil => simp [sumBal, sumDebt]
  | cons pb pbs ih =>
    rw [List.filterMap_cons, List.filterMap_cons, List.map_cons, List.sum_cons]
    rcases hb : pb.balance with _ | q
    · unfold posPart negPart
      rw [hb]
      simpa using ih
    · rcases lt_trichotomy q 0 with hq | hq | hq
      · have hpp : posPart pb = none := by
          unfold posPart; rw [hb]; simp; linarith
        have hnp : negPart pb = some ⟨pb.name, q⟩ := by
          unfold negPart; rw [hb]; simp [hq]
        rw [hpp, hnp, sumDebt_cons]
        show sumBal _ - (|q| + sumDebt _) = q + _
        rw [abs_of_neg hq]
        simp only [hb, Option.getD_some]
        linarith
      · have hpp : posPart pb = none := by
          unfold posPart; rw [hb]; simp [hq]
        have hnp : negPart pb = none := by
          unfold negPart; rw [hb]; simp [hq]
        rw [hpp, hnp]
        simp only [hb, Option.getD_some, hq]
        linarith
      · have hpp : posPart pb = some ⟨pb.name, q⟩ := by
          unfold posPart; rw [hb]; simp [hq]
        have hnp : negPart pb = none := by
          unfold negPart; rw [hb]; simp; linarith
        rw [hpp, hnp, sumBal_cons]
        show q + sumBal _ - sumDebt _ = q + _
        simp only [hb, Option.getD_some]
        linarith

/-- When every amount field parses, the credit/debt totals of the
settlement working arrays reconcile with `checkTotalBalance`'s sums. -/
theorem balance_total (players : List Player)
    (hall : ∀ p ∈ players, jsParseFloat p.buyIn ≠ none ∧ jsParseFloat p.cashOut ≠ none) :
    sumBal (winnersOf players) - sumDebt (losersOf players) =
      cashOutTotal players - buyInTotal players := by
  unfold winnersOf losersOf
  rw [sumBal_perm (sortDesc_perm _), sumDebt_perm (sortAsc_perm _), split_filterMap,
    buyInTotal_eq, cashOutTotal_eq]
  unfold playerBalances
  induction players with
  | nil => simp
  | cons p ps ih =>
    have hp := hall p (List.mem_cons_self _ _)
    have hps : ∀ x ∈ ps, jsParseFloat x.buyIn ≠ none ∧ jsParseFloat x.cashOut ≠ none :=
      fun x hx => hall x (List.mem_cons_of_mem _ hx)
    rw [List.map_cons, List.map_cons, List.map_cons, List.map_cons, List.sum_cons,
      List.sum_cons, List.sum_cons]
    rcases hbuy : jsParseFloat p.buyIn with _ | bq
    · exact absurd hbuy hp.1
    rcases hcash : jsParseFloat p.cashOut with _ | cq
    · exact absurd hcash hp.2
    have hjb : jsBalance p = some (cq - bq) := by
      unfold jsBalance
      rw [hbuy, hcash]
    show (⟨p.name, jsBalance p⟩ : NetBalance).balance.getD 0 + _ = _
    rw [hjb]
    have := ih hps
    simp only [Option.getD_some, hbuy, hcash] at *
    linarith

/-- Decomposition of a winners entry: it comes from a player with that
name whose parsed balance is positive. -/
theorem winnersOf_balance_mem {players : List Player} {w : Bal}
    (hw : w ∈ winnersOf players) :
    ∃ p ∈ players, p.name = w.name ∧ jsBalance p = some w.balance ∧ 0 < w.balance := by
  unfold winnersOf at hw
  rw [List.Perm.mem_iff (sortDesc_perm _)] at hw
  obtain ⟨pb, hpb, hpp⟩ := List.mem_filterMap.mp hw
  obtain ⟨hname, q, hq, hqpos, hqb⟩ := posPart_name hpp
  obtain ⟨p, hp, rfl⟩ := List.mem_map.mp hpb
  have hq' : jsBalance p = some q := hq
  refine ⟨p, hp, hname.symm, ?_, ?_⟩
  · rw [hqb]; exact hq'
  · rw [hqb]; exact hqpos

/-- Decomposition of a losers entry: it comes from a player with that
name whose parsed balance is negative. -/
theorem losersOf_balance_mem {players : List Player} {l : Bal}
    (hl : l ∈ losersOf players) :
    ∃ p ∈ players, p.name = l.name ∧ jsBalance p = some l.balance ∧ l.balance < 0 := by
  unfold losersOf at hl
  rw [List.Perm.mem_iff (sortAsc_perm _)] at hl
  obtain ⟨pb, hpb, hpp⟩ := List.mem_filterMap.mp hl
  obtain ⟨hname, q, hq, hqneg, hqb⟩ := negPart_name hpp
  obtain ⟨p, hp, rfl⟩ := List.mem_map.mp hpb
  have hq' : jsBalance p = some q := hq
  refine ⟨p, hp, hname.symm, ?_, ?_⟩
  · rw [hqb]; exact hq'
  · rw [hqb]; exact hqneg

theorem winnersOf_nonneg (players : List Player) :
    ∀ w ∈ winnersOf players, 0 ≤ w.balance := by
  intro w hw
  obtain ⟨p, _, _, _, hpos⟩ := winnersOf_balance_mem hw
  linarith

/-- Number of debtors of a session (length of the losers array). -/
def numDebtors (players : List Player) : ℕ :=
  (losersOf players).length

/-! ### JS string facts: `toLowerCase` and `trim` commute -/

theorem jsIsSpace_toLowerChar (c : Char) : jsIsSpace (jsToLowerChar c) = jsIsSpace c := by
  unfold jsToLowerChar
  split_ifs with h
  · have h1 : 65 ≤ c.toNat := h.1
    have h2 : c.toNat ≤ 90 := h.2
    have k1 : c ≠ ' ' := fun e => absurd (e ▸ h1) (by decide)
    have k2 : c ≠ '\t' := fun e => absurd (e ▸ h1) (by decide)
    have k3 : c ≠ '\n' := fun e => absurd (e ▸ h1) (by decide)
    have k4 : c ≠ '\r' := fun e => absurd (e ▸ h1) (by decide)
    have hr : jsIsSpace c = false := by
      simp [jsIsSpace, k1, k2, k3, k4]
    rw [hr]
    obtain ⟨n, hn⟩ : ∃ n, c.toNat = n := ⟨_, rfl⟩
    rw [hn] at h1 h2 ⊢
    interval_cases n <;> decide
  · rfl

theorem trimChars_map_lower (l : List Char) :
    trimChars (l.map jsToLowerChar) = (trimChars l).map jsToLowerChar := by
  unfold trimChars
  have hp : jsIsSpace ∘ jsToLowerChar = jsIsSpace := funext jsIsSpace_toLowerChar
  rw [List.dropWhile_map, hp, ← List.map_reverse, List.dropWhile_map, hp, ← List.map_reverse]

/-- `toLowerCase` then `trim` (as the code does) agrees with `trim`
then `toLowerCase` (as the spec phrases it) on every string. -/
theorem trim_lower_comm (s : String) : jsTrim (jsToLower s) = jsToLower (jsTrim s) :=
  congrArg String.mk (trimChars_map_lower s.data)

/-! ### Instrumentation: the creditor indices consulted by the loop -/

/-- The winner indices consulted by one loser's while loop (an index is
consulted when the loop body runs with `winnerIndex` at it); mirrors
`settleDebtor` step for step. -/
def debtorTrace (debt : ℚ) (i : ℕ) : List Bal → List ℕ
  | [] => []
  | w :: ws =>
    if 1 / 100 < debt then
      if 0 < min debt w.balance then i :: debtorTrace (debt - min debt w.balance) (i + 1) ws
      else i :: debtorTrace debt (i + 1) ws
    else []

/-- Per-loser consulted-index traces of the whole run, with the winners
array threaded through exactly as in `debtBlocks`; each loser's
`winnerIndex` starts at 0 (`let winnerIndex = 0` inside the
`forEach`). -/
def tracesAux (ws : List Bal) : List Bal → List (List ℕ)
  | [] => []
  | l :: ls =>
    debtorTrace |l.balance| 0 ws ::
      tracesAux (settleDebtor l.name |l.balance| ws).2.1 ls

/-- The creditor-pointer traces of `calculatePayments`, one list of
consulted winner indices per debtor, in debtor order. -/
def consultTraces (players : List Player) : List (List ℕ) :=
  tracesAux (winnersOf players) (losersOf players)

/-- Within one debtor the consulted indices are consecutive from the
starting index. -/
theorem debtorTrace_eq_range' (ws : List Bal) :
    ∀ (d : ℚ) (i : ℕ), debtorTrace d i ws = List.range' i (debtorTrace d i ws).length := by
  induction ws with
  | nil => intro d i; rfl
  | cons w ws ih =>
    intro d i
    have hunf : debtorTrace d i (w :: ws) =
        if 1 / 100 < d then
          if 0 < min d w.balance then i :: debtorTrace (d - min d w.balance) (i + 1) ws
          else i :: debtorTrace d (i + 1) ws
        else [] := rfl
    rw [hunf]
    split_ifs with h1 h2
    · rw [List.length_cons, List.range'_succ]
      exact congrArg _ (ih _ _)
    · rw [List.length_cons, List.range'_succ]
      exact congrArg _ (ih _ _)
    · rfl

/-- Every member of the per-debtor trace list is a trace that starts at
index 0. -/
theorem tracesAux_mem (ls : List Bal) :
    ∀ ws : List Bal, ∀ tr ∈ tracesAux ws ls,
      ∃ d ws', tr = debtorTrace d 0 ws' := by
  induction ls with
  | nil => simp [tracesAux]
  | cons l ls ih =>
    intro ws tr htr
    rcases List.mem_cons.mp htr with rfl | h
    · exact ⟨|l.balance|, ws, rfl⟩
    · exact ih _ tr h

/-! ### Concrete sessions used by the scenarios and counterexamples -/

/-- Scenario B: balances A = +30, B = +20, C = -50. -/
def exB : List Player :=
  [⟨"A", "0", "30"⟩, ⟨"B", "0", "20"⟩, ⟨"C", "50", "0"⟩]

/-- Three equal debtors of 1.006 against one creditor of 3.018: every
recorded transfer rounds 1.006 up to 1.01. -/
def exConserve : List Player :=
  [⟨"A", "0", "3.018"⟩, ⟨"L1", "1.006", "0"⟩, ⟨"L2", "1.006", "0"⟩, ⟨"L3", "1.006", "0"⟩]

/-- Two debtors over two creditors: the second debtor re-consults
winner index 0 after the first debtor already advanced to index 1. -/
def exPointer : List Player :=
  [⟨"A", "0", "10"⟩, ⟨"B", "0", "10"⟩, ⟨"D1", "15", "0"⟩, ⟨"D2", "5", "0"⟩]

/-- A non-numeric buy-in that the save flow accepts. -/
def exBadNum : List Player :=
  [⟨"A", "abc", "5"⟩, ⟨"B", "5", "0"⟩]

/-- A sub-cent residual (0.004) produces a transfer recorded as 0.00. -/
def exZeroAmt : List Player :=
  [⟨"A", "0", "10.004"⟩, ⟨"B", "0", "2"⟩, ⟨"L1", "10", "0"⟩, ⟨"L2", "2.004", "0"⟩]

/-- Scenario E: totals 100.00 versus 100.01. -/
def exBoundary : List Player :=
  [⟨"A", "100", "100.01"⟩]

/-- Scenario D: names "Alice" and "alice " normalize to the same key. -/
def exAlice : List Player :=
  [⟨"Alice", "1", "2"⟩, ⟨"alice ", "2", "1"⟩]

/-- Everyone breaks even. -/
def exEven : List Player :=
  [⟨"X", "1", "1"⟩]

theorem pf_0 : jsParseFloat "0" = some 0 := by
  simp +decide [jsParseFloat, jsIsSpace, readExpAux, digitsToNat]

theorem pf_1 : jsParseFloat "1" = some 1 := by
  simp +decide [jsParseFloat, jsIsSpace, readExpAux, digitsToNat]

theorem pf_2 : jsParseFloat "2" = some 2 := by
  simp +decide [jsParseFloat, jsIsSpace, readExpAux, digitsToNat]

theorem pf_5 : jsParseFloat "5" = some 5 := by
  simp +decide [jsParseFloat, jsIsSpace, readExpAux, digitsToNat]

theorem pf_10 : jsParseFloat "10" = some 10 := by
  simp +decide [jsParseFloat, jsIsSpace, readExpAux, digitsToNat]

theorem pf_15 : jsParseFloat "15" = some 15 := by
  simp +decide [jsParseFloat, jsIsSpace, readExpAux, digitsToNat]

theorem pf_20 : jsParseFloat "20" = some 20 := by
  simp +decide [jsParseFloat, jsIsSpace, readExpAux, digitsToNat]

theorem pf_30 : jsParseFloat "30" = some 30 := by
  simp +decide [jsParseFloat, jsIsSpace, readExpAux, digitsToNat]

theorem pf_50 : jsParseFloat "50" = some 50 := by
  simp +decide [jsParseFloat, jsIsSpace, readExpAux, digitsToNat]

theorem pf_100 : jsParseFloat "100" = some 100 := by
  simp +decide [jsParseFloat, jsIsSpace, readExpAux, digitsToNat]

theorem pf_abc : jsParseFloat "abc" = none := by
  simp +decide [jsParseFloat, jsIsSpace, readExpAux, digitsToNat]

theorem pf_3018 : jsParseFloat "3.018" = some (1509 / 500) := by
  simp +decide [jsParseFloat, jsIsSpace, readExpAux, digitsToNat]
  norm_num

theorem pf_1006 : jsParseFloat "1.006" = some (503 / 500) := by
  simp +decide [jsParseFloat, jsIsSpace, readExpAux, digitsToNat]
  norm_num

theorem pf_10004 : jsParseFloat "10.004" = some (2501 / 250) := by
  simp +decide [jsParseFloat, jsIsSpace, readExpAux, digitsToNat]
  norm_num

theorem pf_2004 : jsParseFloat "2.004" = some (501 / 250) := by
  simp +decide [jsParseFloat, jsIsSpace, readExpAux, digitsToNat]
  norm_num

theorem pf_10001 : jsParseFloat "100.01" = some (10001 / 100) := by
  simp +decide [jsParseFloat, jsIsSpace, readExpAux, digitsToNat]
  norm_num

theorem winnersOf_exB : winnersOf exB = [⟨"A", 30⟩, ⟨"B", 20⟩] := by
  norm_num [winnersOf, exB, playerBalances, jsBalance, pf_0, pf_30, pf_20, pf_50,
    posPart, sortDesc, insertDesc, List.filterMap_cons, List.filterMap_nil,
    List.foldr_cons, List.foldr_nil]

theorem losersOf_exB : losersOf exB = [⟨"C", -50⟩] := by
  norm_num [losersOf, exB, playerBalances, jsBalance, pf_0, pf_30, pf_20, pf_50,
    negPart, sortAsc, insertAsc, List.filterMap_cons, List.filterMap_nil,
    List.foldr_cons, List.foldr_nil]

theorem calculatePayments_exB :
    calculatePayments exB = [⟨"C", "A", 30⟩, ⟨"C", "B", 20⟩] := by
  norm_num [calculatePayments, winnersOf_exB, losersOf_exB, settleStep, settleDebtor,
    round2, List.foldl_cons, List.foldl_nil, Int.floor_eq_iff]

theorem checkTotalBalance_exB : checkTotalBalance exB = true := by
  have hb : buyInTotal exB = 50 := by
    norm_num [buyInTotal, exB, List.foldl_cons, List.foldl_nil, pf_0, pf_50]
  have hc : cashOutTotal exB = 50 := by
    norm_num [cashOutTotal, exB, List.foldl_cons, List.foldl_nil, pf_0, pf_30, pf_20]
  simp [checkTotalBalance, hb, hc]

theorem losersOf_exEven : losersOf exEven = [] := by
  norm_num [losersOf, exEven, playerBalances, jsBalance, pf_1, negPart, sortAsc,
    List.filterMap_cons, List.filterMap_nil, List.foldr_cons, List.foldr_nil]

theorem winnersOf_exConserve : winnersOf exConserve = [⟨"A", 1509 / 500⟩] := by
  norm_num [winnersOf, exConserve, playerBalances, jsBalance, pf_0, pf_3018, pf_1006,
    posPart, sortDesc, insertDesc, List.filterMap_cons, List.filterMap_nil,
    List.foldr_cons, List.foldr_nil]

theorem losersOf_exConserve :
    losersOf exConserve = [⟨"L1", -(503 / 500)⟩, ⟨"L2", -(503 / 500)⟩, ⟨"L3", -(503 / 500)⟩] := by
  norm_num [losersOf, exConserve, playerBalances, jsBalance, pf_0, pf_3018, pf_1006,
    negPart, sortAsc, insertAsc, List.filterMap_cons, List.filterMap_nil,
    List.foldr_cons, List.foldr_nil]

theorem calculatePayments_exConserve :
    calculatePayments exConserve =
      [⟨"L1", "A", 101 / 100⟩, ⟨"L2", "A", 101 / 100⟩, ⟨"L3", "A", 101 / 100⟩] := by
  norm_num [calculatePayments, winnersOf_exConserve, losersOf_exConserve, settleStep,
    settleDebtor, round2, List.foldl_cons, List.foldl_nil, Int.floor_eq_iff, abs_of_nonpos]

theorem sumTo_exConserve : sumTo "A" (calculatePayments exConserve) = 303 / 100 := by
  rw [calculatePayments_exConserve]
  simp +decide [sumTo, List.filter_cons, List.filter_nil]
  norm_num

theorem checkTotalBalance_exConserve : checkTotalBalance exConserve = true := by
  have hb : buyInTotal exConserve = 1509 / 500 := by
    norm_num [buyInTotal, exConserve, List.foldl_cons, List.foldl_nil, pf_0, pf_1006]
  have hc : cashOutTotal exConserve = 1509 / 500 := by
    norm_num [cashOutTotal, exConserve, List.foldl_cons, List.foldl_nil, pf_0, pf_3018]
  simp [checkTotalBalance, hb, hc]

theorem winnersOf_exPointer : winnersOf exPointer = [⟨"A", 10⟩, ⟨"B", 10⟩] := by
  norm_num [winnersOf, exPointer, playerBalances, jsBalance, pf_0, pf_10, pf_15, pf_5,
    posPart, sortDesc, insertDesc, List.filterMap_cons, List.filterMap_nil,
    List.foldr_cons, List.foldr_nil]

theorem losersOf_exPointer : losersOf exPointer = [⟨"D1", -15⟩, ⟨"D2", -5⟩] := by
  norm_num [losersOf, exPointer, playerBalances, jsBalance, pf_0, pf_10, pf_15, pf_5,
    negPart, sortAsc, insertAsc, List.filterMap_cons, List.filterMap_nil,
    List.foldr_cons, List.foldr_nil]

theorem checkTotalBalance_exPointer : checkTotalBalance exPointer = true := by
  have hb : buyInTotal exPointer = 20 := by
    norm_num [buyInTotal, exPointer, List.foldl_cons, List.foldl_nil, pf_0, pf_15, pf_5]
  have hc : cashOutTotal exPointer = 20 := by
    norm_num [cashOutTotal, exPointer, List.foldl_cons, List.foldl_nil, pf_0, pf_10]
  simp [checkTotalBalance, hb, hc]

theorem consultTraces_exPointer : consultTraces exPointer = [[0, 1], [0, 1]] := by
  norm_num [consultTraces, winnersOf_exPointer, losersOf_exPointer, tracesAux,
    debtorTrace, settleDebtor, round2]

theorem winnersOf_exZeroAmt : winnersOf exZeroAmt = [⟨"A", 2501 / 250⟩, ⟨"B", 2⟩] := by
  norm_num [winnersOf, exZeroAmt, playerBalances, jsBalance, pf_0, pf_10004, pf_2,
    pf_10, pf_2004, posPart, sortDesc, insertDesc, List.filterMap_cons,
    List.filterMap_nil, List.foldr_cons, List.foldr_nil]

theorem losersOf_exZeroAmt : losersOf exZeroAmt = [⟨"L1", -10⟩, ⟨"L2", -(501 / 250)⟩] := by
  norm_num [losersOf, exZeroAmt, playerBalances, jsBalance, pf_0, pf_10004, pf_2,
    pf_10, pf_2004, negPart, sortAsc, insertAsc, List.filterMap_cons,
    List.filterMap_nil, List.foldr_cons, List.foldr_nil]

theorem calculatePayments_exZeroAmt :
    calculatePayments exZeroAmt = [⟨"L1", "A", 10⟩, ⟨"L2", "A", 0⟩, ⟨"L2", "B", 2⟩] := by
  norm_num [calculatePayments, winnersOf_exZeroAmt, losersOf_exZeroAmt, settleStep,
    settleDebtor, round2, List.foldl_cons, List.foldl_nil, Int.floor_eq_iff,
    abs_neg, abs_of_nonneg, min_def]

theorem checkTotalBalance_exZeroAmt : checkTotalBalance exZeroAmt = true := by
  have hb : buyInTotal exZeroAmt = 3001 / 250 := by
    norm_num [buyInTotal, exZeroAmt, List.foldl_cons, List.foldl_nil, pf_0, pf_10, pf_2004]
  have hc : cashOutTotal exZeroAmt = 3001 / 250 := by
    norm_num [cashOutTotal, exZeroAmt, List.foldl_cons, List.foldl_nil, pf_0, pf_10004, pf_2]
  simp [checkTotalBalance, hb, hc]

theorem calculatePayments_exBadNum : calculatePayments exBadNum = [] := by
  have hw : winnersOf exBadNum = [] := by
    norm_num [winnersOf, exBadNum, playerBalances, jsBalance, pf_abc, pf_5, pf_0,
      posPart, sortDesc, List.filterMap_cons, List.filterMap_nil,
      List.foldr_cons, List.foldr_nil]
  have hl : losersOf exBadNum = [⟨"B", -5⟩] := by
    norm_num [losersOf, exBadNum, playerBalances, jsBalance, pf_abc, pf_5, pf_0,
      negPart, sortAsc, insertAsc, List.filterMap_cons, List.filterMap_nil,
      List.foldr_cons, List.foldr_nil]
  norm_num [calculatePayments, hw, hl, settleStep, settleDebtor,
    List.foldl_cons, List.foldl_nil]

theorem checkTotalBalance_exBadNum : checkTotalBalance exBadNum = true := by
  have hb : buyInTotal exBadNum = 5 := by
    norm_num [buyInTotal, exBadNum, List.foldl_cons, List.foldl_nil, pf_abc, pf_5]
  have hc : cashOutTotal exBadNum = 5 := by
    norm_num [cashOutTotal, exBadNum, List.foldl_cons, List.foldl_nil, pf_5, pf_0]
  simp [checkTotalBalance, hb, hc]

theorem saveGame_exBadNum :
    saveGame "1" "2025-01-01" exBadNum [] =
      (SaveOutcome.saved ⟨"1", "2025-01-01", exBadNum, []⟩,
        [⟨"1", "2025-01-01", exBadNum, []⟩]) := by
  have hd : hasDuplicateNames exBadNum = false := by decide
  have hf : allFieldsFilled exBadNum = true := by decide
  simp [saveGame, hd, hf, checkTotalBalance_exBadNum, calculatePayments_exBadNum]

theorem checkTotalBalance_exBoundary : checkTotalBalance exBoundary = false := by
  have hb : buyInTotal exBoundary = 100 := by
    norm_num [buyInTotal, exBoundary, List.foldl_cons, List.foldl_nil, pf_100]
  have hc : cashOutTotal exBoundary = 10001 / 100 := by
    norm_num [cashOutTotal, exBoundary, List.foldl_cons, List.foldl_nil, pf_10001]
  have r1 : round2 (100 : ℚ) = 100 := IsCents.round2_eq ⟨10000, by norm_num⟩
  have r2 : round2 (10001 / 100 : ℚ) = 10001 / 100 := IsCents.round2_eq ⟨10001, by norm_num⟩
  simp [checkTotalBalance, hb, hc, r1, r2]
  norm_num

theorem jsb_A30 : jsBalance ⟨"A", "0", "30"⟩ = some 30 := by
  simp [jsBalance, pf_0, pf_30]

theorem jsb_B20 : jsBalance ⟨"B", "0", "20"⟩ = some 20 := by
  simp [jsBalance, pf_0, pf_20]

theorem jsb_C50 : jsBalance ⟨"C", "50", "0"⟩ = some (-50) := by
  norm_num [jsBalance, pf_0, pf_50]

theorem jsb_A3018 : jsBalance ⟨"A", "0", "3.018"⟩ = some (1509 / 500) := by
  norm_num [jsBalance, pf_0, pf_3018]

theorem jsb_X11 : jsBalance ⟨"X", "1", "1"⟩ = some 0 := by
  norm_num [jsBalance, pf_1]

/-! ### The claims -/

/-- C3 (counterexample): an entry with the non-numeric, non-empty
buy-in `"abc"` passes every validation of `saveGame`, which goes on to
compute the settlement and store the session — validation does not
reject non-numeric amount fields. -/
theorem C3_completeness_cex :
    (∃ p ∈ exBadNum, p.buyIn ≠ "" ∧ jsParseFloat p.buyIn = none) ∧
    (saveGame "1" "2025-01-01" exBadNum []).1 =
      SaveOutcome.saved ⟨"1", "2025-01-01", exBadNum, []⟩ := by
  constructor
  · exact ⟨⟨"A", "abc", "5"⟩, by decide, by decide, pf_abc⟩
  · rw [saveGame_exBadNum]

/-- C3 (amended): the completeness validation in `saveGame` passes iff
every entry's name, buy-in and cash-out are non-empty after trimming;
numeric parseability is not checked (the balance check coerces a
non-numeric amount to 0, and settlement drops its NaN balance). -/
theorem C3_completeness_amended (players : List Player) :
    allFieldsFilled players = true ↔
      ∀ p ∈ players, jsTrim p.name ≠ "" ∧ jsTrim p.buyIn ≠ "" ∧ jsTrim p.cashOut ≠ "" := by
  simp [allFieldsFilled, List.all_eq_true, Bool.and_eq_true, bne_iff_ne, and_assoc]

/-- C3 (witness): the amended characterization evaluated on the
counterexample session. -/
theorem C3_completeness_witness :
    jsTrim (Player.mk "A" "abc" "5").name ≠ "" ∧
      jsTrim (Player.mk "A" "abc" "5").buyIn ≠ "" ∧
      jsTrim (Player.mk "A" "abc" "5").cashOut ≠ "" :=
  (C3_completeness_amended exBadNum).mp (by decide) ⟨"A", "abc", "5"⟩ (by decide)

/-- C4: `checkTotalBalance` sums the (0-defaulted) parsed buy-ins and
cash-outs, rounds each sum independently to 2 digits, and returns true
iff the rounded sums are equal; on totals 100.00 versus 100.01 it
returns false. -/
theorem C4_balance_rounding :
    (∀ players : List Player,
      checkTotalBalance players = true ↔
        round2 ((players.map fun p => (jsParseFloat p.buyIn).getD 0).sum) =
          round2 ((players.map fun p => (jsParseFloat p.cashOut).getD 0).sum)) ∧
    checkTotalBalance exBoundary = false := by
  constructor
  · intro players
    unfold checkTotalBalance
    rw [decide_eq_true_eq, buyInTotal_eq, cashOutTotal_eq]
  · exact checkTotalBalance_exBoundary

/-- C4 (witness): the rounded-sums characterization evaluated on the
balanced Scenario B session. -/
theorem C4_balance_rounding_witness :
    round2 ((exB.map fun p => (jsParseFloat p.buyIn).getD 0).sum) =
      round2 ((exB.map fun p => (jsParseFloat p.cashOut).getD 0).sum) :=
  (C4_balance_rounding.1 exB).mp checkTotalBalance_exB

/-- C5: lowercasing and trimming commute on every string, so the
code's `toLowerCase().trim()` normalization agrees with the spec's
trim-then-lowercase; `hasDuplicateNames` returns true iff two entries
at distinct positions share a normalized name; and it fires on
"Alice" / "alice ". -/
theorem C5_duplicate_detection :
    (∀ s : String, jsTrim (jsToLower s) = jsToLower (jsTrim s)) ∧
    (∀ players : List Player,
      hasDuplicateNames players = true ↔
        ∃ i j : Fin ((players.map fun p => jsToLower (jsTrim p.name)).length),
          (players.map fun p => jsToLower (jsTrim p.name)).get i =
              (players.map fun p => jsToLower (jsTrim p.name)).get j ∧ i ≠ j) ∧
    hasDuplicateNames exAlice = true := by
  refine ⟨trim_lower_comm, ?_, by decide⟩
  intro players
  have hmapeq : (players.map fun p => jsToLower (jsTrim p.name)) =
      players.map fun p => normalizeName p.name := by
    simp only [normalizeName, trim_lower_comm]
  have key : hasDuplicateNames players = true ↔
      ¬ (players.map fun p => jsToLower (jsTrim p.name)).Nodup := by
    rw [hmapeq, ← hasDuplicateNames_false_iff]
    cases hres : hasDuplicateNames players <;> simp
  rw [key, List.nodup_iff_injective_get, Function.not_injective_iff]

/-- C5 (witness): the characterization evaluated on the Alice session:
positions 0 and 1 carry the same normalized name. -/
theorem C5_duplicate_detection_witness :
    ∃ i j : Fin ((exAlice.map fun p => jsToLower (jsTrim p.name)).length),
      (exAlice.map fun p => jsToLower (jsTrim p.name)).get i =
          (exAlice.map fun p => jsToLower (jsTrim p.name)).get j ∧ i ≠ j :=
  (C5_duplicate_detection.2.1 exAlice).mp (by decide)

/-- C8: the save flow runs its checks in order — duplicate names, then
completeness, then balance — returning early (leaving storage
untouched) on the first failure, and stores a session with the computed
payments only when every check passed. -/
theorem C8_validation_gates (idStr dateStr : String) (players : List Player)
    (existingGames : List GameWithPayments) :
    (hasDuplicateNames players = true →
        saveGame idStr dateStr players existingGames =
          (SaveOutcome.showDuplicateModal, existingGames)) ∧
    (hasDuplicateNames players = false → allFieldsFilled players = false →
        saveGame idStr dateStr players existingGames =
          (SaveOutcome.incompleteAlert, existingGames)) ∧
    (hasDuplicateNames players = false → allFieldsFilled players = true →
        checkTotalBalance players = false →
        saveGame idStr dateStr players existingGames =
          (SaveOutcome.showBalanceModal, existingGames)) ∧
    (∀ g : GameWithPayments,
        (saveGame idStr dateStr players existingGames).1 = SaveOutcome.saved g →
        hasDuplicateNames players = false ∧ allFieldsFilled players = true ∧
          checkTotalBalance players = true ∧
          g = ⟨idStr, dateStr, players, calculatePayments players⟩ ∧
          (saveGame idStr dateStr players existingGames).2 = existingGames ++ [g]) := by
  refine ⟨?_, ?_, ?_, ?_⟩
  · intro h
    simp [saveGame, h]
  · intro h1 h2
    simp [saveGame, h1, h2]
  · intro h1 h2 h3
    simp [saveGame, h1, h2, h3]
  · intro g hg
    by_cases h1 : hasDuplicateNames players = true
    · simp [saveGame, h1] at hg
    have h1' : hasDuplicateNames players = false := by
      cases hres : hasDuplicateNames players
      · rfl
      · exact absurd hres h1
    by_cases h2 : allFieldsFilled players = true
    · by_cases h3 : checkTotalBalance players = true
      · have hg' := hg
        simp [saveGame, h1', h2, h3] at hg'
        refine ⟨h1', h2, h3, hg'.symm, ?_⟩
        simp [saveGame, h1', h2, h3, ← hg']
      · have h3' : checkTotalBalance players = false := by
          cases hres : checkTotalBalance players
          · rfl
          · exact absurd hres h3
        simp [saveGame, h1', h2, h3'] at hg
    · have h2' : allFieldsFilled players = false := by
        cases hres : allFieldsFilled players
        · rfl
        · exact absurd hres h2
      simp [saveGame, h1', h2'] at hg

/-- C8 (witness): the gates evaluated on concrete sessions — the
duplicate-name session is turned away with storage untouched. -/
theorem C8_validation_gates_witness :
    saveGame "9" "2025-01-01" exAlice [] = (SaveOutcome.showDuplicateModal, []) :=
  (C8_validation_gates "9" "2025-01-01" exAlice []).1 (by decide)

/-- C9: on Scenario B (A = +30, B = +20, C = -50) the settlement is
exactly C→A 30.00 then C→B 20.00, largest creditor first; and on any
session where every player's parsed balance is exactly 0 the transfer
list is empty. -/
theorem C9_scenarioB_and_zero :
    calculatePayments exB = [⟨"C", "A", 30⟩, ⟨"C", "B", 20⟩] ∧
    ∀ players : List Player, (∀ p ∈ players, jsBalance p = some 0) →
      calculatePayments players = [] := by
  refine ⟨calculatePayments_exB, ?_⟩
  intro players hz
  have hlos : losersOf players = [] := by
    unfold losersOf
    have hfm : (playerBalances players).filterMap negPart = [] := by
      rw [List.filterMap_eq_nil_iff]
      intro pb hpb
      obtain ⟨p, hp, rfl⟩ := List.mem_map.mp hpb
      have hzp : jsBalance p = some 0 := hz p hp
      have hrw : (⟨p.name, jsBalance p⟩ : NetBalance) = ⟨p.name, some 0⟩ := by rw [hzp]
      rw [hrw]
      unfold negPart
      norm_num
    rw [hfm]
    rfl
  unfold calculatePayments
  rw [hlos]
  rfl

/-- C9 (witness): the all-zero case evaluated on a concrete break-even
session. -/
theorem C9_scenarioB_and_zero_witness : calculatePayments exEven = [] :=
  C9_scenarioB_and_zero.2 exEven (by
    intro p hp
    have : p = ⟨"X", "1", "1"⟩ := List.mem_singleton.mp hp
    rw [this]
    exact jsb_X11)

/-- C10: when all three checks pass, `saveGame` stores the session
containing the input player entries verbatim alongside the computed
payments, appended to the existing games; the settlement computation
itself is a pure function of the entries, which are returned
unchanged. -/
theorem C10_entries_untouched (idStr dateStr : String) (players : List Player)
    (existingGames : List GameWithPayments)
    (h1 : hasDuplicateNames players = false) (h2 : allFieldsFilled players = true)
    (h3 : checkTotalBalance players = true) :
    saveGame idStr dateStr players existingGames =
      (SaveOutcome.saved ⟨idStr, dateStr, players, calculatePayments players⟩,
        existingGames ++ [⟨idStr, dateStr, players, calculatePayments players⟩]) := by
  simp [saveGame, h1, h2, h3]

/-- C10 (witness): the save flow on Scenario B stores the three
original entries verbatim with their computed payments. -/
theorem C10_entries_untouched_witness :
    saveGame "7" "2025-01-01" exB [] =
      (SaveOutcome.saved ⟨"7", "2025-01-01", exB, calculatePayments exB⟩,
        [⟨"7", "2025-01-01", exB, calculatePayments exB⟩]) :=
  C10_entries_untouched "7" "2025-01-01" exB [] (by decide) (by decide)
    checkTotalBalance_exB

/-- C6 (counterexample): on a validated session where a winner is left
with a 0.004 residual, the loop records a transfer of
`Number((0.004).toFixed(2)) = 0` — a zero-amount transfer appears in
the output. -/
theorem C6_positive_amounts_cex :
    (hasDuplicateNames exZeroAmt = false ∧ allFieldsFilled exZeroAmt = true ∧
      checkTotalBalance exZeroAmt = true) ∧
    calculatePayments exZeroAmt = [⟨"L1", "A", 10⟩, ⟨"L2", "A", 0⟩, ⟨"L2", "B", 2⟩] ∧
    ∃ t ∈ calculatePayments exZeroAmt, ¬ (0 < t.amount) := by
  refine ⟨⟨by decide, by decide, checkTotalBalance_exZeroAmt⟩,
    calculatePayments_exZeroAmt, ?_⟩
  refine ⟨⟨"L2", "A", 0⟩, ?_, by norm_num⟩
  rw [calculatePayments_exZeroAmt]
  exact List.mem_cons_of_mem _ (List.mem_cons_self _ _)

/-- C6 (amended): every recorded transfer amount is nonnegative (it is
`round2` of a strictly positive exact payment), and when every player's
parsed balance is a whole number of cents every recorded amount is
strictly positive; a 0.00 amount can appear only for a sub-half-cent
exact payment. -/
theorem C6_positive_amounts_amended :
    (∀ players : List Player, ∀ t ∈ calculatePayments players, 0 ≤ t.amount) ∧
    (∀ players : List Player,
      (∀ p ∈ players, ∀ b : ℚ, jsBalance p = some b → IsCents b) →
      ∀ t ∈ calculatePayments players, 0 < t.amount) := by
  constructor
  · intro players t ht
    rw [calculatePayments_eq] at ht
    exact debtBlocks_amounts_nonneg _ _ t ht
  · intro players hcents t ht
    rw [calculatePayments_eq] at ht
    refine debtBlocks_amounts_pos _ _ ?_ ?_ t ht
    · intro w hw
      obtain ⟨p, hp, _, hb, _⟩ := winnersOf_balance_mem hw
      exact hcents p hp _ hb
    · intro l hlm
      obtain ⟨p, hp, _, hb, _⟩ := losersOf_balance_mem hlm
      exact hcents p hp _ hb

/-- C6 (witness): on the whole-cent Scenario B session the first
transfer's amount is strictly positive. -/
theorem C6_positive_amounts_witness :
    0 < (Payment.mk "C" "A" 30).amount :=
  C6_positive_amounts_amended.2 exB
    (by
      intro p hp b hb
      fin_cases hp
      · rw [jsb_A30] at hb
        cases hb
        exact ⟨3000, by norm_num⟩
      · rw [jsb_B20] at hb
        cases hb
        exact ⟨2000, by norm_num⟩
      · rw [jsb_C50] at hb
        cases hb
        exact ⟨-5000, by norm_num⟩)
    ⟨"C", "A", 30⟩
    (by rw [calculatePayments_exB]; exact List.mem_cons_self _ _)

/-- C7: under the duplicate-name validation, every transfer goes from a
player whose parsed net balance is strictly negative to a player whose
parsed net balance is strictly positive, and never from a player to
themselves. -/
theorem C7_transfer_endpoints (players : List Player)
    (hdup : hasDuplicateNames players = false) :
    ∀ t ∈ calculatePayments players,
      (∃ p ∈ players, p.name = t.from_ ∧ ∃ b : ℚ, jsBalance p = some b ∧ b < 0) ∧
      (∃ p ∈ players, p.name = t.to_ ∧ ∃ b : ℚ, jsBalance p = some b ∧ 0 < b) ∧
      t.from_ ≠ t.to_ := by
  intro t ht
  rw [calculatePayments_eq] at ht
  have hnm := raw_names_nodup hdup
  obtain ⟨l, hl, hfrom⟩ := debtBlocks_from _ _ t ht
  obtain ⟨pL, hpL, hnameL, hbL, hnegL⟩ := losersOf_balance_mem hl
  have hto := debtBlocks_to _ _ t ht
  obtain ⟨w, hw, hnameW⟩ := List.mem_map.mp hto
  obtain ⟨pW, hpW, hnameW2, hbW, hposW⟩ := winnersOf_balance_mem hw
  refine ⟨⟨pL, hpL, ?_, l.balance, hbL, hnegL⟩, ⟨pW, hpW, ?_, w.balance, hbW, hposW⟩, ?_⟩
  · rw [hnameL, hfrom]
  · rw [hnameW2, hnameW]
  · intro hc
    have hpe : pL = pW := List.inj_on_of_nodup_map hnm hpL hpW
      (by rw [hnameL, ← hfrom, hc, ← hnameW, ← hnameW2])
    rw [hpe, hbW] at hbL
    have : w.balance = l.balance := Option.some.inj hbL
    rw [this] at hposW
    linarith

/-- C7 (witness): the endpoint conclusion evaluated at the first
Scenario B transfer. -/
theorem C7_transfer_endpoints_witness :
    (∃ p ∈ exB, p.name = (Payment.mk "C" "A" 30).from_ ∧
        ∃ b : ℚ, jsBalance p = some b ∧ b < 0) ∧
    (∃ p ∈ exB, p.name = (Payment.mk "C" "A" 30).to_ ∧
        ∃ b : ℚ, jsBalance p = some b ∧ 0 < b) ∧
    (Payment.mk "C" "A" 30).from_ ≠ (Payment.mk "C" "A" 30).to_ :=
  C7_transfer_endpoints exB (by decide) ⟨"C", "A", 30⟩
    (by rw [calculatePayments_exB]; exact List.mem_cons_self _ _)

/-- C2 (counterexample): on a validated session with two debtors over
two creditors the consulted winner indices are 0, 1 for the first
debtor and again 0, 1 for the second — the pointer is re-initialized to
0 for each debtor (`let winnerIndex = 0` inside the `forEach`), so the
index sequence of the whole run is not monotone. -/
theorem C2_pointer_reset_cex :
    (hasDuplicateNames exPointer = false ∧ allFieldsFilled exPointer = true ∧
      checkTotalBalance exPointer = true) ∧
    consultTraces exPointer = [[0, 1], [0, 1]] ∧
    ¬ List.Chain' (· ≤ ·) (consultTraces exPointer).flatten := by
  refine ⟨⟨by decide, by decide, checkTotalBalance_exPointer⟩,
    consultTraces_exPointer, ?_⟩
  rw [consultTraces_exPointer]
  simp +decide [List.chain'_cons, List.flatten_cons, List.flatten_nil]

/-- C2 (amended): the creditor pointer is reset to index 0 at the start
of each debtor and, within one debtor's loop, advances by exactly one
per consulted index — each debtor's trace is `0, 1, 2, …`; residual
creditor balances (but not the pointer) carry over between debtors
through the shared winners array. -/
theorem C2_pointer_amended (players : List Player) :
    ∀ tr ∈ consultTraces players, tr = List.range tr.length := by
  intro tr htr
  obtain ⟨d, ws', rfl⟩ := tracesAux_mem _ _ tr htr
  rw [List.range_eq_range']
  exact debtorTrace_eq_range' _ _ _

/-- C2 (witness): the first debtor's trace on the two-debtor session is
exactly `range 2 = [0, 1]`. -/
theorem C2_pointer_amended_witness :
    ([0, 1] : List ℕ) = List.range ([0, 1] : List ℕ).length :=
  C2_pointer_amended exPointer [0, 1]
    (by rw [consultTraces_exPointer]; exact List.mem_cons_self _ _)

/-- C1 (counterexample): on a validated, exactly balanced session
(creditor A = +3.018 against three debtors of 1.006 each) every
recorded transfer rounds 1.006 up to 1.01, so A receives 3.03 — more
than 0.01 away from A's balance.  The fixed 0.01 conservation
tolerance fails because each recorded amount carries up to half a cent
of rounding error. -/
theorem C1_conservation_cex :
    (hasDuplicateNames exConserve = false ∧ allFieldsFilled exConserve = true ∧
      checkTotalBalance exConserve = true ∧
      (∀ p ∈ exConserve, jsParseFloat p.buyIn ≠ none ∧ jsParseFloat p.cashOut ≠ none)) ∧
    jsBalance ⟨"A", "0", "3.018"⟩ = some (1509 / 500) ∧ (0 : ℚ) < 1509 / 500 ∧
    sumTo "A" (calculatePayments exConserve) = 303 / 100 ∧
    ¬ (|sumTo "A" (calculatePayments exConserve) - 1509 / 500| ≤ 1 / 100) := by
  refine ⟨⟨by decide, by decide, checkTotalBalance_exConserve, ?_⟩,
    jsb_A3018, by norm_num, sumTo_exConserve, ?_⟩
  · intro p hp
    fin_cases hp
    · exact ⟨by rw [pf_0]; exact fun hc => Option.noConfusion hc,
        by rw [pf_3018]; exact fun hc => Option.noConfusion hc⟩
    · exact ⟨by rw [pf_1006]; exact fun hc => Option.noConfusion hc,
        by rw [pf_0]; exact fun hc => Option.noConfusion hc⟩
    · exact ⟨by rw [pf_1006]; exact fun hc => Option.noConfusion hc,
        by rw [pf_0]; exact fun hc => Option.noConfusion hc⟩
    · exact ⟨by rw [pf_1006]; exact fun hc => Option.noConfusion hc,
        by rw [pf_0]; exact fun hc => Option.noConfusion hc⟩
  · rw [sumTo_exConserve]
    rw [show (303 / 100 : ℚ) - 1509 / 500 = 3 / 250 by norm_num]
    rw [abs_of_nonneg (by norm_num : (0 : ℚ) ≤ 3 / 250)]
    norm_num

/-- C1 (amended): on a validated session (no duplicate names, all
amounts parse, balance check passed) conservation holds up to the loop
leftover plus the rounding of each recorded amount: a debtor's outgoing
total is within `0.01 + 0.005·k` of its debt, where `k` is its number
of transfers, and a creditor's incoming total is within
`(numDebtors + 1)·0.01 + 0.005·k` of its balance (each debtor may
abandon up to 0.01 of debt, and that unsettled residual can accumulate
on a creditor).  The claim's fixed 0.01 tolerance must be relaxed by
these rounding terms. -/
theorem C1_conservation_amended (players : List Player)
    (hdup : hasDuplicateNames players = false)
    (hall : ∀ p ∈ players, jsParseFloat p.buyIn ≠ none ∧ jsParseFloat p.cashOut ≠ none)
    (hbal : checkTotalBalance players = true) :
    (∀ p ∈ players, ∀ b : ℚ, jsBalance p = some b → b < 0 →
        |sumFrom p.name (calculatePayments players) - (-b)| ≤
          1 / 100 + (countFrom p.name (calculatePayments players) : ℚ) / 200) ∧
    (∀ p ∈ players, ∀ b : ℚ, jsBalance p = some b → 0 < b →
        |sumTo p.name (calculatePayments players) - b| ≤
          ((numDebtors players : ℚ) + 1) / 100 +
            (countTo p.name (calculatePayments players) : ℚ) / 200) := by
  have hnm := raw_names_nodup hdup
  have hlnd := losersOf_names_nodup hnm
  have hwnn := winnersOf_nonneg players
  have hTb : round2 (buyInTotal players) = round2 (cashOutTotal players) :=
    of_decide_eq_true hbal
  have hT := round2_eq_close hTb
  have htot := balance_total players hall
  have hTa := abs_le.mp (le_of_lt hT)
  have hDW : sumDebt (losersOf players) - sumBal (winnersOf players) ≤ 1 / 100 := by
    have h1 := hTa.1
    have h2 := hTa.2
    linarith
  constructor
  · intro p hp b hb hneg
    have hpb : (⟨p.name, some b⟩ : NetBalance) ∈ playerBalances players := by
      unfold playerBalances
      rw [List.mem_map]
      exact ⟨p, hp, by rw [hb]⟩
    have hl : (⟨p.name, b⟩ : Bal) ∈ losersOf players := mem_losersOf hpb hneg
    have hkey := debtBlocks_sumFrom (losersOf players) (winnersOf players) hwnn hlnd _ hl
    dsimp only at hkey
    rw [abs_of_neg hneg] at hkey
    have hmax : max (1 / 100) (sumDebt (losersOf players) - sumBal (winnersOf players)) ≤
        1 / 100 := max_le le_rfl hDW
    rw [calculatePayments_eq]
    linarith
  · intro p hp b hb hpos
    have hpb : (⟨p.name, some b⟩ : NetBalance) ∈ playerBalances players := by
      unfold playerBalances
      rw [List.mem_map]
      exact ⟨p, hp, by rw [hb]⟩
    have hbn : balName p.name (winnersOf players) = b := balName_winnersOf hnm hpb hpos
    have h1 := debtBlocks_sumTo (losersOf players) (winnersOf players) p.name
    have hfinnn := finalWinners_nonneg (losersOf players) (winnersOf players) hwnn
    have hfnn : 0 ≤ balName p.name (finalWinners (winnersOf players) (losersOf players)) :=
      balName_nonneg _ hfinnn
    have hfle : balName p.name (finalWinners (winnersOf players) (losersOf players)) ≤
        sumBal (finalWinners (winnersOf players) (losersOf players)) :=
      balName_le_sumBal _ hfinnn
    have hsfin := finalWinners_sumBal (losersOf players) (winnersOf players) hwnn hDW
    rw [calculatePayments_eq]
    have heq : sumTo p.name (debtBlocks (winnersOf players) (losersOf players)) - b =
        (sumTo p.name (debtBlocks (winnersOf players) (losersOf players)) -
            (balName p.name (winnersOf players) -
              balName p.name (finalWinners (winnersOf players) (losersOf players)))) +
          (- balName p.name (finalWinners (winnersOf players) (losersOf players))) := by
      rw [hbn]
      ring
    rw [heq]
    refine le_trans (abs_add _ _) ?_
    rw [abs_neg, abs_of_nonneg hfnn]
    unfold numDebtors
    have h2 := hTa.1
    have h3 := hTa.2
    linarith

/-- C1 (witness): the amended conservation evaluated on Scenario B at
the single debtor C. -/
theorem C1_conservation_witness :
    |sumFrom "C" (calculatePayments exB) - (-(-50 : ℚ))| ≤
      1 / 100 + (countFrom "C" (calculatePayments exB) : ℚ) / 200 :=
  (C1_conservation_amended exB (by decide)
      (by
        intro p hp
        fin_cases hp
        · exact ⟨by rw [pf_0]; exact fun hc => Option.noConfusion hc,
            by rw [pf_30]; exact fun hc => Option.noConfusion hc⟩
        · exact ⟨by rw [pf_0]; exact fun hc => Option.noConfusion hc,
            by rw [pf_20]; exact fun hc => Option.noConfusion hc⟩
        · exact ⟨by rw [pf_50]; exact fun hc => Option.noConfusion hc,
            by rw [pf_0]; exact fun hc => Option.noConfusion hc⟩)
      checkTotalBalance_exB).1
    ⟨"C", "50", "0"⟩ (by decide) (-50) jsb_C50 (by norm_num)

end Poker
